import Mathlib

/-!
Connections resource of the Auth0 management client.

A shallow embedding of `management/connection.go`: the resource model
(`Connection`, `ConnectionOptions`, `ConnectionOptionsTotp`,
`PasswordlessEmail`), the polymorphic `ConnectionOptionsEmail` codec and
`ConnectionManager.ReadByName`.

Wire texts are represented by the JSON values they denote, so a `[]byte`
argument or result of the Go code is a `JSON` value here.  The parts of
`encoding/json` that the source relies on (struct tags, `omitempty`, pointer
and `null` handling, the `Marshaler`/`Unmarshaler` hooks) are modelled on
those values.  A Go `string` is a sequence of bytes, turned into text when
it is written and back into bytes when it is read.
-/

namespace management

/-! ## JSON values -/

/-- Number token of a JSON text.  A token without fraction or exponent part
carries its integer value; every other token is kept as its text. -/
inductive Number where
  | int (i : Int)
  | real (text : String)
  deriving DecidableEq, Repr

/-- JSON value denoted by a well-formed JSON text.  The members of an object
are kept in wire order and may repeat a key. -/
inductive JSON where
  | null
  | bool (b : Bool)
  | num (n : Number)
  | str (s : String)
  | arr (elems : List JSON)
  | obj (members : List (String × JSON))

mutual
/-- Nesting depth of a value: how many arrays and objects enclose its
innermost part. -/
def JSON.depth : JSON → Nat
  | .arr elems => depthElems elems + 1
  | .obj members => depthMembers members + 1
  | _ => 0
/-- Largest depth among the elements of an array. -/
def depthElems : List JSON → Nat
  | [] => 0
  | x :: xs => max x.depth (depthElems xs)
/-- Largest depth among the member values of an object. -/
def depthMembers : List (String × JSON) → Nat
  | [] => 0
  | (_, v) :: m => max v.depth (depthMembers m)
end

/-- Errors returned by the `encoding/json` entry points.  Only the kind of
failure is kept; offsets and type descriptions are not modelled. -/
inductive JSONError where
  | SyntaxError
  | UnmarshalTypeError
  | UnsupportedValueError
  | MarshalerError
  deriving DecidableEq, Repr

/-! ## Go strings -/

/-- Go `string`: a sequence of bytes (numbers below 256), which need not be
valid UTF-8. -/
structure GoString where
  bytes : List Nat
  deriving DecidableEq, Repr

/-- UTF-8 encoding of one character. -/
def utf8EncodeChar (c : Char) : List Nat :=
  let n := c.toNat
  if n < 0x80 then [n]
  else if n < 0x800 then [0xC0 + n / 0x40, 0x80 + n % 0x40]
  else if n < 0x10000 then [0xE0 + n / 0x1000, 0x80 + n / 0x40 % 0x40, 0x80 + n % 0x40]
  else [0xF0 + n / 0x40000, 0x80 + n / 0x1000 % 0x40, 0x80 + n / 0x40 % 0x40, 0x80 + n % 0x40]

/-- Continuation byte of a UTF-8 sequence. -/
def isCont (b : Nat) : Bool := 0x80 ≤ b && b ≤ 0xBF

/-- Call `utf8.DecodeRuneInString` on the bytes `b0 :: rest`: the character
read and the number of further bytes it takes.  A byte that starts no valid
sequence is read alone as U+FFFD. -/
def decodeRune (b0 : Nat) (rest : List Nat) : Char × Nat :=
  let b1 := rest.getD 0 0
  let b2 := rest.getD 1 0
  let b3 := rest.getD 2 0
  if b0 < 0x80 then (Char.ofNat b0, 0)
  else if 0xC2 ≤ b0 && b0 ≤ 0xDF && isCont b1 then
    (Char.ofNat ((b0 - 0xC0) * 0x40 + (b1 - 0x80)), 1)
  else if ((b0 == 0xE0 && 0xA0 ≤ b1 && b1 ≤ 0xBF) || (0xE1 ≤ b0 && b0 ≤ 0xEC && isCont b1) ||
      (b0 == 0xED && 0x80 ≤ b1 && b1 ≤ 0x9F) || (0xEE ≤ b0 && b0 ≤ 0xEF && isCont b1)) &&
      isCont b2 then
    (Char.ofNat ((b0 - 0xE0) * 0x1000 + (b1 - 0x80) * 0x40 + (b2 - 0x80)), 2)
  else if ((b0 == 0xF0 && 0x90 ≤ b1 && b1 ≤ 0xBF) || (0xF1 ≤ b0 && b0 ≤ 0xF3 && isCont b1) ||
      (b0 == 0xF4 && 0x80 ≤ b1 && b1 ≤ 0x8F)) && isCont b2 && isCont b3 then
    (Char.ofNat ((b0 - 0xF0) * 0x40000 + (b1 - 0x80) * 0x1000 + (b2 - 0x80) * 0x40 + (b3 - 0x80)), 3)
  else (Char.ofNat 0xFFFD, 0)

/-- Text read from a byte sequence, every invalid byte giving U+FFFD; the
first `skip` bytes belong to the character read last. -/
def utf8Decode : Nat → List Nat → List Char
  | _, [] => []
  | skip + 1, _ :: rest => utf8Decode skip rest
  | 0, b0 :: rest => (decodeRune b0 rest).1 :: utf8Decode (decodeRune b0 rest).2 rest

/-- Go string holding the UTF-8 encoding of a text. -/
def GoString.ofText (s : String) : GoString := ⟨s.data.flatMap utf8EncodeChar⟩

/-- Text the encoder writes for a Go string: its characters, with U+FFFD in
place of every byte that is not part of valid UTF-8. -/
def GoString.text (g : GoString) : String := ⟨utf8Decode 0 g.bytes⟩

/-- The string is valid UTF-8: it is the encoding of the text read from it,
which is the case exactly for the encodings of texts. -/
def GoString.validUTF8 (g : GoString) : Bool := decide (GoString.ofText g.text = g)

/-- A `*string` that is nil or points to valid UTF-8. -/
def stringPtrValid (p : Option GoString) : Bool :=
  match p with
  | none => true
  | some g => g.validUTF8

deriving instance DecidableEq for Except

/-! ## Per-type encoding and decoding -/

/-- How `encoding/json` treats the values of one Go type: the `omitempty`
test, the encoder, and the decoder, which stores into an existing value. -/
structure Codec (T : Type) where
  isEmptyValue : T → Bool
  marshal : T → Except JSONError JSON
  unmarshal : JSON → T → Except JSONError T

/-- Largest nesting depth the decoder accepts. -/
def maxNestingDepth : Nat := 10000

/-- Call `json.Unmarshal(b, &v)`: the input is scanned first, and the scanner
of `encoding/json` rejects arrays and objects nested deeper than the limit;
the input is then decoded into `v`. -/
def jsonUnmarshal {T : Type} (c : Codec T) (b : JSON) (v : T) : Except JSONError T :=
  if maxNestingDepth < b.depth then .error .SyntaxError else c.unmarshal b v

/-- Go `string`.  The encoder writes the text of the string; the decoder
stores the UTF-8 encoding of the text read. -/
def stringCodec : Codec GoString :=
  ⟨fun s => s.bytes.length == 0,
   fun s => .ok (.str s.text),
   fun j cur =>
    match j with
    | .null => .ok cur
    | .str s => .ok (GoString.ofText s)
    | _ => .error .UnmarshalTypeError⟩

/-- Go `bool`. -/
def boolCodec : Codec Bool :=
  ⟨fun b => !b,
   fun b => .ok (.bool b),
   fun j cur =>
    match j with
    | .null => .ok cur
    | .bool b => .ok b
    | _ => .error .UnmarshalTypeError⟩

/-- Range of the Go type `int` (64 bits). -/
def inIntRange (i : Int) : Prop := -(2 : Int) ^ 63 ≤ i ∧ i < (2 : Int) ^ 63

instance (i : Int) : Decidable (inIntRange i) := by
  unfold inIntRange
  exact inferInstance

/-- Go `int`: only an integer token inside the 64-bit range is accepted. -/
def intCodec : Codec Int :=
  ⟨fun i => i == 0,
   fun i => .ok (.num (.int i)),
   fun j cur =>
    match j with
    | .null => .ok cur
    | .num (.int i) => if inIntRange i then .ok i else .error .UnmarshalTypeError
    | _ => .error .UnmarshalTypeError⟩

/-- Go pointer `*T`, `none` being the nil pointer.  `null` resets the pointer
to nil; any other value is decoded into the pointee, which is allocated as
`zero` first when the pointer is nil. -/
def ptr {T : Type} (c : Codec T) (zero : T) : Codec (Option T) :=
  ⟨fun p => p.isNone,
   fun p =>
    match p with
    | none => .ok .null
    | some x => c.marshal x,
   fun j cur =>
    match j with
    | .null => .ok none
    | j => (c.unmarshal j (cur.getD zero)).map some⟩

/-! ## Struct encoding and decoding -/

/-- One exported field of a Go struct together with its `json` tag. -/
structure StructField (S : Type) where
  T : Type
  name : String
  omitEmpty : Bool
  get : S → T
  set : S → T → S
  codec : Codec T

/-- Member list written for a struct value: the fields in declaration order,
leaving out an `omitempty` field that holds an empty value. -/
def marshalFields {S : Type} : List (StructField S) → S → Except JSONError (List (String × JSON))
  | [], _ => .ok []
  | f :: fs, s =>
    if f.omitEmpty && f.codec.isEmptyValue (f.get s) then marshalFields fs s
    else
      match f.codec.marshal (f.get s) with
      | .error err => .error err
      | .ok j =>
        match marshalFields fs s with
        | .error err => .error err
        | .ok rest => .ok ((f.name, j) :: rest)

/-- Case folding applied to object keys when no field matches exactly. -/
def foldRune (c : Char) : Char :=
  if c = Char.ofNat 0x17F then 'S'
  else if c = Char.ofNat 0x212A then 'K'
  else c.toUpper

/-- Folded form of a key. -/
def foldName (s : String) : List Char := s.data.map foldRune

/-- Field addressed by an object key: the field with exactly that name,
otherwise the first field whose name equals the key up to case. -/
def findField {S : Type} (fields : List (StructField S)) (key : String) : Option (StructField S) :=
  match fields.find? (fun f => f.name == key) with
  | some f => some f
  | none => fields.find? (fun f => foldName f.name == foldName key)

/-- Decoding of the members of an object into a struct value, in wire order.
Members that address no field are skipped.  A member that does not fit its
field makes the call fail; the partly filled target is not kept. -/
def unmarshalMembers {S : Type} (fields : List (StructField S)) :
    List (String × JSON) → S → Except JSONError S
  | [], s => .ok s
  | (k, v) :: rest, s =>
    match findField fields k with
    | none => unmarshalMembers fields rest s
    | some f =>
      match f.codec.unmarshal v (f.get s) with
      | .error err => .error err
      | .ok x => unmarshalMembers fields rest (f.set s x)

/-- Go struct with the given fields.  `null` leaves the value untouched, an
object is decoded member by member, anything else is a type mismatch. -/
def structCodec {S : Type} (fields : List (StructField S)) : Codec S :=
  ⟨fun _ => false,
   fun s =>
    match marshalFields fields s with
    | .error err => .error err
    | .ok members => .ok (.obj members),
   fun j cur =>
    match j with
    | .null => .ok cur
    | .obj members => unmarshalMembers fields members cur
    | _ => .error .UnmarshalTypeError⟩

/-! ## `PasswordlessEmail` and `ConnectionOptionsEmail` -/

/-- Go struct `PasswordlessEmail`. -/
structure PasswordlessEmail where
  Syntax : Option GoString
  From : Option GoString
  Subject : Option GoString
  Body : Option GoString
  deriving DecidableEq, Repr

/-- Zero value of `PasswordlessEmail`. -/
def PasswordlessEmail.zero : PasswordlessEmail := ⟨none, none, none, none⟩

/-- Fields and `json` tags of `PasswordlessEmail`. -/
def PasswordlessEmail.fields : List (StructField PasswordlessEmail) :=
  [⟨Option GoString, "syntax", true, fun s => s.Syntax, fun s x => { s with Syntax := x }, ptr stringCodec ⟨[]⟩⟩,
   ⟨Option GoString, "from", true, fun s => s.From, fun s x => { s with From := x }, ptr stringCodec ⟨[]⟩⟩,
   ⟨Option GoString, "subject", true, fun s => s.Subject, fun s x => { s with Subject := x }, ptr stringCodec ⟨[]⟩⟩,
   ⟨Option GoString, "body", true, fun s => s.Body, fun s x => { s with Body := x }, ptr stringCodec ⟨[]⟩⟩]

/-- Dynamic value of the field `v interface{}` of `ConnectionOptionsEmail`:
the nil interface, a `*bool` or a `*PasswordlessEmail`, the two pointers
possibly nil. These are the only types stored into `v` by the package. -/
inductive EmailValue where
  | nil
  | bool (p : Option Bool)
  | email (p : Option PasswordlessEmail)
  deriving DecidableEq, Repr

/-- Go struct `ConnectionOptionsEmail`. -/
structure ConnectionOptionsEmail where
  v : EmailValue
  deriving DecidableEq, Repr

/-- Zero value of `ConnectionOptionsEmail`: `v` is the nil interface. -/
def ConnectionOptionsEmail.zero : ConnectionOptionsEmail := ⟨.nil⟩

/-- `json.Marshal(e.v)` for the dynamic values `v` can hold. -/
def marshalEmailValue : EmailValue → Except JSONError JSON
  | .nil => .ok .null
  | .bool p => (ptr boolCodec false).marshal p
  | .email p => (ptr (structCodec PasswordlessEmail.fields) PasswordlessEmail.zero).marshal p

/-- `MarshalJSON` on a non-nil receiver. -/
def ConnectionOptionsEmail.MarshalJSON (e : ConnectionOptionsEmail) : Except JSONError JSON :=
  marshalEmailValue e.v

/-- `UnmarshalJSON` on a non-nil receiver: the receiver after the call, or
the error returned. -/
def ConnectionOptionsEmail.UnmarshalJSON (e : ConnectionOptionsEmail) (b : JSON) :
    Except JSONError ConnectionOptionsEmail :=
  match jsonUnmarshal (structCodec PasswordlessEmail.fields) b PasswordlessEmail.zero with
  | .ok p => .ok { e with v := .email (some p) }
  | .error _ =>
    match jsonUnmarshal boolCodec b false with
    | .error err => .error err
    | .ok q => .ok { e with v := .bool (some q) }

/-- `SetPasswordlessEmail` on a non-nil receiver. -/
def ConnectionOptionsEmail.SetPasswordlessEmail (e : ConnectionOptionsEmail)
    (v : Option PasswordlessEmail) : ConnectionOptionsEmail :=
  { e with v := .email v }

/-- `SetBool` on a non-nil receiver. -/
def ConnectionOptionsEmail.SetBool (e : ConnectionOptionsEmail) (v : Option Bool) :
    ConnectionOptionsEmail :=
  { e with v := .bool v }

/-- Accessor `PasswordlessEmail`; the receiver may be the nil pointer. -/
def ConnectionOptionsEmail.PasswordlessEmail (e : Option ConnectionOptionsEmail) :
    Option management.PasswordlessEmail × Bool :=
  match e with
  | none => (none, false)
  | some e =>
    match e.v with
    | .nil => (none, false)
    | .email email => (email, true)
    | _ => (none, false)

/-- Accessor `Bool`; the receiver may be the nil pointer. -/
def ConnectionOptionsEmail.Bool (e : Option ConnectionOptionsEmail) : Option Bool × Bool :=
  match e with
  | none => (none, false)
  | some e =>
    match e.v with
    | .nil => (none, false)
    | .bool email => (email, true)
    | _ => (none, false)

/-- Value bound to a key by a list of string members: the last binding. -/
def lastValue (k : String) : List (String × String) → Option String
  | [] => none
  | (k', v) :: ms =>
    match lastValue k ms with
    | some x => some x
    | none => if k' = k then some v else none

/-! ## Untyped values (`interface{}`) -/

/-- Go `float64`.  A finite value is represented by the number token that
denotes it, so the conversion between a float and its token is not modelled
and a token beyond the `float64` range is not told apart. -/
inductive Float64 where
  | finite (n : Number)
  | nan
  | posInf
  | negInf
  deriving DecidableEq, Repr

/-- Value held by an `interface{}`: nil, a `bool`, a `float64`, a `string`, a
`[]interface{}` or a `map[string]interface{}`, the last two possibly nil
(`nilSlice`, `nilMap`).  The entries of a map are kept in increasing key
order, the order in which the encoder writes them. -/
inductive Any where
  | nil
  | bool (b : Bool)
  | float64 (f : Float64)
  | string (s : GoString)
  | nilSlice
  | slice (elems : List Any)
  | nilMap
  | map (entries : List (GoString × Any))

/-- Go slice `[]interface{}`; `none` is the nil slice. -/
abbrev SliceAny := Option (List Any)

/-- Go map `map[string]interface{}`; `none` is the nil map. -/
abbrev MapStringAny := Option (List (GoString × Any))

/-- Encoding of a `float64`; a value that is not finite is rejected. -/
def encFloat : Float64 → Except JSONError JSON
  | .finite n => .ok (.num n)
  | _ => .error .UnsupportedValueError

mutual
/-- Encoding of an untyped value. -/
def encAny : Any → Except JSONError JSON
  | .nil => .ok .null
  | .bool b => .ok (.bool b)
  | .float64 f => encFloat f
  | .string s => .ok (.str s.text)
  | .nilSlice => .ok .null
  | .slice xs =>
    match encList xs with
    | .error err => .error err
    | .ok js => .ok (.arr js)
  | .nilMap => .ok .null
  | .map m =>
    match encEntries m with
    | .error err => .error err
    | .ok ms => .ok (.obj ms)
/-- Encoding of the elements of a slice. -/
def encList : List Any → Except JSONError (List JSON)
  | [] => .ok []
  | x :: xs =>
    match encAny x with
    | .error err => .error err
    | .ok j =>
      match encList xs with
      | .error err => .error err
      | .ok js => .ok (j :: js)
/-- Encoding of the entries of a map. -/
def encEntries : List (GoString × Any) → Except JSONError (List (String × JSON))
  | [] => .ok []
  | (k, v) :: m =>
    match encAny v with
    | .error err => .error err
    | .ok j =>
      match encEntries m with
      | .error err => .error err
      | .ok ms => .ok ((k.text, j) :: ms)
end

/-- Assignment `m[k] = v` on a map kept in increasing key order. -/
def mapInsert {α : Type} (k : GoString) (v : α) : List (GoString × α) → List (GoString × α)
  | [] => [(k, v)]
  | (k', v') :: m =>
    if k.bytes < k'.bytes then (k, v) :: (k', v') :: m
    else if k = k' then (k, v) :: m
    else (k', v') :: mapInsert k v m

mutual
/-- Decoding of a JSON value into an `interface{}`. -/
def decAny : JSON → Any
  | .null => .nil
  | .bool b => .bool b
  | .num n => .float64 (.finite n)
  | .str s => .string (GoString.ofText s)
  | .arr xs => .slice (decList xs)
  | .obj m => .map (decMembers [] m)
/-- Decoding of the elements of an array. -/
def decList : List JSON → List Any
  | [] => []
  | x :: xs => decAny x :: decList xs
/-- Decoding of the members of an object into a map, in wire order. -/
def decMembers (acc : List (GoString × Any)) : List (String × JSON) → List (GoString × Any)
  | [] => acc
  | (k, v) :: m => decMembers (mapInsert (GoString.ofText k) (decAny v) acc) m
end

/-- Go `interface{}`. -/
def anyCodec : Codec Any :=
  ⟨fun a =>
    match a with
    | .nil => true
    | _ => false,
   fun a => encAny a,
   fun j _ => .ok (decAny j)⟩

/-- Go `[]interface{}`. -/
def sliceCodec : Codec SliceAny :=
  ⟨fun s => (s.getD []).length == 0,
   fun s =>
    match s with
    | none => .ok .null
    | some xs =>
      match encList xs with
      | .error err => .error err
      | .ok js => .ok (.arr js),
   fun j _ =>
    match j with
    | .null => .ok none
    | .arr xs => .ok (some (decList xs))
    | _ => .error .UnmarshalTypeError⟩

/-- Go `map[string]interface{}`.  An object is decoded into the existing map,
which is allocated first when nil. -/
def mapCodec : Codec MapStringAny :=
  ⟨fun m => (m.getD []).length == 0,
   fun m =>
    match m with
    | none => .ok .null
    | some es =>
      match encEntries es with
      | .error err => .error err
      | .ok ms => .ok (.obj ms),
   fun j cur =>
    match j with
    | .null => .ok none
    | .obj members => .ok (some (decMembers (cur.getD []) members))
    | _ => .error .UnmarshalTypeError⟩

/-! ## Resource model -/

/-- Go struct `ConnectionOptionsTotp`. -/
structure ConnectionOptionsTotp where
  TimeStep : Option Int
  Length : Option Int

/-- Zero value of `ConnectionOptionsTotp`. -/
def ConnectionOptionsTotp.zero : ConnectionOptionsTotp := ⟨none, none⟩

/-- Fields and `json` tags of `ConnectionOptionsTotp`. -/
def ConnectionOptionsTotp.fields : List (StructField ConnectionOptionsTotp) :=
  [⟨Option Int, "time_step", true, fun s => s.TimeStep, fun s x => { s with TimeStep := x }, ptr intCodec 0⟩,
   ⟨Option Int, "length", true, fun s => s.Length, fun s x => { s with Length := x }, ptr intCodec 0⟩]

/-- Type `*ConnectionOptionsEmail`, which implements `json.Marshaler` and
`json.Unmarshaler`: a non-nil pointer is written by `MarshalJSON`, and a value
other than `null` is handed to `UnmarshalJSON` on the pointee, which is
allocated first when the pointer is nil. -/
def emailPtrCodec : Codec (Option ConnectionOptionsEmail) :=
  ⟨fun p => p.isNone,
   fun p =>
    match p with
    | none => .ok .null
    | some e =>
      match e.MarshalJSON with
      | .error _ => .error .MarshalerError
      | .ok j => .ok j,
   fun j cur =>
    match j with
    | .null => .ok none
    | j => ((cur.getD ConnectionOptionsEmail.zero).UnmarshalJSON j).map some⟩

/-- Go struct `ConnectionOptions`. -/
structure ConnectionOptions where
  Validation : MapStringAny
  PasswordPolicy : Option GoString
  PasswordHistory : MapStringAny
  PasswordNoPersonalInfo : MapStringAny
  PasswordDictionary : MapStringAny
  PasswordComplexityOptions : MapStringAny
  APIEnableUsers : Option Bool
  BasicProfile : Option Bool
  ExtAdmin : Option Bool
  ExtIsSuspended : Option Bool
  ExtAgreedTerms : Option Bool
  ExtGroups : Option Bool
  ExtNestedGroups : Option Bool
  ExtAssignedPlans : Option Bool
  ExtProfile : Option Bool
  EnabledDatabaseCustomization : Option Bool
  BruteForceProtection : Option Bool
  ImportMode : Option Bool
  DisableSignup : Option Bool
  RequiresUsername : Option Bool
  UpstreamParams : Option Any
  ClientID : Option GoString
  ClientSecret : Option GoString
  TenantDomain : Option GoString
  DomainAliases : SliceAny
  UseWsfed : Option Bool
  WaadProtocol : Option GoString
  WaadCommonEndpoint : Option Bool
  AppID : Option GoString
  AppDomain : Option GoString
  MaxGroupsToRetrieve : Option GoString
  CustomScripts : MapStringAny
  Configuration : MapStringAny
  Totp : Option ConnectionOptionsTotp
  Name : Option GoString
  TwilioSid : Option GoString
  TwilioToken : Option GoString
  From : Option GoString
  Syntax : Option GoString
  Template : Option GoString
  MessagingServiceSid : Option GoString
  AdfsServer : Option GoString
  CommunityBaseURL : Option GoString
  Email : Option ConnectionOptionsEmail
  StrategyVersion : Option Int

/-- Zero value of `ConnectionOptions`. -/
def ConnectionOptions.zero : ConnectionOptions :=
  ⟨none, none, none, none, none, none, none, none, none, none, none, none, none, none, none,
   none, none, none, none, none, none, none, none, none, none, none, none, none, none, none,
   none, none, none, none, none, none, none, none, none, none, none, none, none, none, none⟩

/-- Fields and `json` tags of `ConnectionOptions`, in declaration order. -/
def ConnectionOptions.fields : List (StructField ConnectionOptions) :=
  [⟨MapStringAny, "validation", true, fun s => s.Validation, fun s x => { s with Validation := x }, mapCodec⟩,
   ⟨Option GoString, "passwordPolicy", true, fun s => s.PasswordPolicy, fun s x => { s with PasswordPolicy := x }, ptr stringCodec ⟨[]⟩⟩,
   ⟨MapStringAny, "password_history", true, fun s => s.PasswordHistory, fun s x => { s with PasswordHistory := x }, mapCodec⟩,
   ⟨MapStringAny, "password_no_personal_info", true, fun s => s.PasswordNoPersonalInfo, fun s x => { s with PasswordNoPersonalInfo := x }, mapCodec⟩,
   ⟨MapStringAny, "password_dictionary", true, fun s => s.PasswordDictionary, fun s x => { s with PasswordDictionary := x }, mapCodec⟩,
   ⟨MapStringAny, "password_complexity_options", true, fun s => s.PasswordComplexityOptions, fun s x => { s with PasswordComplexityOptions := x }, mapCodec⟩,
   ⟨Option Bool, "api_enable_users", true, fun s => s.APIEnableUsers, fun s x => { s with APIEnableUsers := x }, ptr boolCodec false⟩,
   ⟨Option Bool, "basic_profile", true, fun s => s.BasicProfile, fun s x => { s with BasicProfile := x }, ptr boolCodec false⟩,
   ⟨Option Bool, "ext_admin", true, fun s => s.ExtAdmin, fun s x => { s with ExtAdmin := x }, ptr boolCodec false⟩,
   ⟨Option Bool, "ext_is_suspended", true, fun s => s.ExtIsSuspended, fun s x => { s with ExtIsSuspended := x }, ptr boolCodec false⟩,
   ⟨Option Bool, "ext_agreed_terms", true, fun s => s.ExtAgreedTerms, fun s x => { s with ExtAgreedTerms := x }, ptr boolCodec false⟩,
   ⟨Option Bool, "ext_groups", true, fun s => s.ExtGroups, fun s x => { s with ExtGroups := x }, ptr boolCodec false⟩,
   ⟨Option Bool, "ext_nested_groups", true, fun s => s.ExtNestedGroups, fun s x => { s with ExtNestedGroups := x }, ptr boolCodec false⟩,
   ⟨Option Bool, "ext_assigned_plans", true, fun s => s.ExtAssignedPlans, fun s x => { s with ExtAssignedPlans := x }, ptr boolCodec false⟩,
   ⟨Option Bool, "ext_profile", true, fun s => s.ExtProfile, fun s x => { s with ExtProfile := x }, ptr boolCodec false⟩,
   ⟨Option Bool, "enabledDatabaseCustomization", true, fun s => s.EnabledDatabaseCustomization, fun s x => { s with EnabledDatabaseCustomization := x }, ptr boolCodec false⟩,
   ⟨Option Bool, "brute_force_protection", true, fun s => s.BruteForceProtection, fun s x => { s with BruteForceProtection := x }, ptr boolCodec false⟩,
   ⟨Option Bool, "import_mode", true, fun s => s.ImportMode, fun s x => { s with ImportMode := x }, ptr boolCodec false⟩,
   ⟨Option Bool, "disable_signup", true, fun s => s.DisableSignup, fun s x => { s with DisableSignup := x }, ptr boolCodec false⟩,
   ⟨Option Bool, "requires_username", true, fun s => s.RequiresUsername, fun s x => { s with RequiresUsername := x }, ptr boolCodec false⟩,
   ⟨Option Any, "upstream_params", true, fun s => s.UpstreamParams, fun s x => { s with UpstreamParams := x }, ptr anyCodec .nil⟩,
   ⟨Option GoString, "client_id", true, fun s => s.ClientID, fun s x => { s with ClientID := x }, ptr stringCodec ⟨[]⟩⟩,
   ⟨Option GoString, "client_secret", true, fun s => s.ClientSecret, fun s x => { s with ClientSecret := x }, ptr stringCodec ⟨[]⟩⟩,
   ⟨Option GoString, "tenant_domain", true, fun s => s.TenantDomain, fun s x => { s with TenantDomain := x }, ptr stringCodec ⟨[]⟩⟩,
   ⟨SliceAny, "domain_aliases", true, fun s => s.DomainAliases, fun s x => { s with DomainAliases := x }, sliceCodec⟩,
   ⟨Option Bool, "use_wsfed", true, fun s => s.UseWsfed, fun s x => { s with UseWsfed := x }, ptr boolCodec false⟩,
   ⟨Option GoString, "waad_protocol", true, fun s => s.WaadProtocol, fun s x => { s with WaadProtocol := x }, ptr stringCodec ⟨[]⟩⟩,
   ⟨Option Bool, "waad_common_endpoint", true, fun s => s.WaadCommonEndpoint, fun s x => { s with WaadCommonEndpoint := x }, ptr boolCodec false⟩,
   ⟨Option GoString, "app_id", true, fun s => s.AppID, fun s x => { s with AppID := x }, ptr stringCodec ⟨[]⟩⟩,
   ⟨Option GoString, "app_domain", true, fun s => s.AppDomain, fun s x => { s with AppDomain := x }, ptr stringCodec ⟨[]⟩⟩,
   ⟨Option GoString, "max_groups_to_retrieve", true, fun s => s.MaxGroupsToRetrieve, fun s x => { s with MaxGroupsToRetrieve := x }, ptr stringCodec ⟨[]⟩⟩,
   ⟨MapStringAny, "customScripts", true, fun s => s.CustomScripts, fun s x => { s with CustomScripts := x }, mapCodec⟩,
   ⟨MapStringAny, "configuration", true, fun s => s.Configuration, fun s x => { s with Configuration := x }, mapCodec⟩,
   ⟨Option ConnectionOptionsTotp, "totp", true, fun s => s.Totp, fun s x => { s with Totp := x }, ptr (structCodec ConnectionOptionsTotp.fields) ConnectionOptionsTotp.zero⟩,
   ⟨Option GoString, "name", true, fun s => s.Name, fun s x => { s with Name := x }, ptr stringCodec ⟨[]⟩⟩,
   ⟨Option GoString, "twilio_sid", true, fun s => s.TwilioSid, fun s x => { s with TwilioSid := x }, ptr stringCodec ⟨[]⟩⟩,
   ⟨Option GoString, "twilio_token", true, fun s => s.TwilioToken, fun s x => { s with TwilioToken := x }, ptr stringCodec ⟨[]⟩⟩,
   ⟨Option GoString, "from", true, fun s => s.From, fun s x => { s with From := x }, ptr stringCodec ⟨[]⟩⟩,
   ⟨Option GoString, "syntax", true, fun s => s.Syntax, fun s x => { s with Syntax := x }, ptr stringCodec ⟨[]⟩⟩,
   ⟨Option GoString, "template", true, fun s => s.Template, fun s x => { s with Template := x }, ptr stringCodec ⟨[]⟩⟩,
   ⟨Option GoString, "messaging_service_sid", true, fun s => s.MessagingServiceSid, fun s x => { s with MessagingServiceSid := x }, ptr stringCodec ⟨[]⟩⟩,
   ⟨Option GoString, "adfs_server", true, fun s => s.AdfsServer, fun s x => { s with AdfsServer := x }, ptr stringCodec ⟨[]⟩⟩,
   ⟨Option GoString, "community_base_url", false, fun s => s.CommunityBaseURL, fun s x => { s with CommunityBaseURL := x }, ptr stringCodec ⟨[]⟩⟩,
   ⟨Option ConnectionOptionsEmail, "email", true, fun s => s.Email, fun s x => { s with Email := x }, emailPtrCodec⟩,
   ⟨Option Int, "strategy_version", false, fun s => s.StrategyVersion, fun s x => { s with StrategyVersion := x }, ptr intCodec 0⟩]

/-- Go struct `Connection`. -/
structure Connection where
  ID : Option GoString
  Name : Option GoString
  Strategy : Option GoString
  IsDomainConnection : Option Bool
  Options : Option ConnectionOptions
  EnabledClients : SliceAny
  Realms : SliceAny
  Metadata : Option Any

/-- Zero value of `Connection`. -/
def Connection.zero : Connection := ⟨none, none, none, none, none, none, none, none⟩

/-- Fields and `json` tags of `Connection`, in declaration order. -/
def Connection.fields : List (StructField Connection) :=
  [⟨Option GoString, "id", true, fun s => s.ID, fun s x => { s with ID := x }, ptr stringCodec ⟨[]⟩⟩,
   ⟨Option GoString, "name", true, fun s => s.Name, fun s x => { s with Name := x }, ptr stringCodec ⟨[]⟩⟩,
   ⟨Option GoString, "strategy", true, fun s => s.Strategy, fun s x => { s with Strategy := x }, ptr stringCodec ⟨[]⟩⟩,
   ⟨Option Bool, "is_domain_connection", true, fun s => s.IsDomainConnection, fun s x => { s with IsDomainConnection := x }, ptr boolCodec false⟩,
   ⟨Option ConnectionOptions, "options", true, fun s => s.Options, fun s x => { s with Options := x }, ptr (structCodec ConnectionOptions.fields) ConnectionOptions.zero⟩,
   ⟨SliceAny, "enabled_clients", true, fun s => s.EnabledClients, fun s x => { s with EnabledClients := x }, sliceCodec⟩,
   ⟨SliceAny, "realms", true, fun s => s.Realms, fun s x => { s with Realms := x }, sliceCodec⟩,
   ⟨Option Any, "metadata", true, fun s => s.Metadata, fun s x => { s with Metadata := x }, ptr anyCodec .nil⟩]

/-- Call `json.Marshal(c)` on a connection. -/
def Connection.marshal (c : Connection) : Except JSONError JSON :=
  (structCodec Connection.fields).marshal c

/-- Call `json.Unmarshal(b, &c)` with `c` a fresh `Connection`. -/
def Connection.unmarshal (b : JSON) : Except JSONError Connection :=
  jsonUnmarshal (structCodec Connection.fields) b Connection.zero

/-- Call `json.Marshal(o)` on connection options. -/
def ConnectionOptions.marshal (o : ConnectionOptions) : Except JSONError JSON :=
  (structCodec ConnectionOptions.fields).marshal o

/-- Keys of the members of an object. -/
def JSON.keys : JSON → List String
  | .obj members => members.map Prod.fst
  | _ => []

/-! ## Connection manager -/

/-- Modelled from the spec: the generic structured error of the management
client, carrying the HTTP status, a short code and a message. -/
structure managementError where
  StatusCode : Int
  Err : String
  Message : String
  deriving DecidableEq, Repr

/-- Go `error` values seen by the manager: a `*managementError` built by the
package, or an error of the transport, which is not inspected. -/
inductive Error where
  | management (e : managementError)
  | transport (text : String)
  deriving DecidableEq, Repr

/-- Modelled from the spec: an option of a list request, contributing one
query parameter. -/
structure ListOption where
  key : String
  value : String
  deriving DecidableEq, Repr

/-- Modelled from the spec: the list option built by `Parameter(key, value)`. -/
def Parameter (key value : String) : ListOption := ⟨key, value⟩

/-- Modelled from the spec: the pagination metadata embedded in every list
page (type `List` of the package); it is not inspected by this file. -/
structure Pagination where
  members : List (String × JSON)

/-- Go slice `[]*Connection`; an element may be the nil pointer. -/
abbrev ConnectionPtrs := List (Option Connection)

/-- Go struct `ConnectionList`. -/
structure ConnectionList where
  List : Pagination
  Connections : ConnectionPtrs

/-- Modelled from the spec: the shared transport embedded in every manager.
`get url` is the outcome of `m.get(url, &c)` for a nil `c`: the pointer `c`
after the call and the error returned. -/
structure Management where
  uri : List String → String
  q : List ListOption → String
  defaults : List ListOption → List ListOption
  get : String → Option ConnectionList × Option Error

/-- Go struct `ConnectionManager`. -/
structure ConnectionManager where
  Management : Management

/-- Method `List`: the named results `c` and `err`. -/
def ConnectionManager.List (m : ConnectionManager) (opts : List ListOption) :
    Option ConnectionList × Option Error :=
  let opts := m.Management.defaults opts
  m.Management.get (m.Management.uri ["connections"] ++ m.Management.q opts)

/-- Method `ReadByName`: the pair returned, or `none` when the call panics on
the nil pointer dereference `c.Connections`. -/
def ConnectionManager.ReadByName (m : ConnectionManager) (name : String) :
    Option (Option Connection × Option Error) :=
  match m.List [Parameter "name" name] with
  | (_, some err) => some (none, some err)
  | (none, none) => none
  | (some c, none) =>
    if h : c.Connections.length > 0 then some (c.Connections[0], none)
    else some (none, some (.management ⟨404, "Not Found", "Connection not found"⟩))

/-- States of a `ConnectionOptionsEmail` obtained from the zero value by calls
of `SetBool`, `SetPasswordlessEmail` and successful calls of `UnmarshalJSON`. -/
inductive Reachable : ConnectionOptionsEmail → Prop where
  | zero : Reachable ConnectionOptionsEmail.zero
  | setBool (e : ConnectionOptionsEmail) (v : Option Bool) :
      Reachable e → Reachable (e.SetBool v)
  | setPasswordlessEmail (e : ConnectionOptionsEmail) (v : Option PasswordlessEmail) :
      Reachable e → Reachable (e.SetPasswordlessEmail v)
  | unmarshalJSON (e e' : ConnectionOptionsEmail) (b : JSON) :
      Reachable e → e.UnmarshalJSON b = .ok e' → Reachable e'

/-- States obtained like the reachable ones, the setters being handed non-nil
pointers only. -/
inductive ReachableNonNil : ConnectionOptionsEmail → Prop where
  | zero : ReachableNonNil ConnectionOptionsEmail.zero
  | setBool (e : ConnectionOptionsEmail) (b : Bool) :
      ReachableNonNil e → ReachableNonNil (e.SetBool (some b))
  | setPasswordlessEmail (e : ConnectionOptionsEmail) (p : PasswordlessEmail) :
      ReachableNonNil e → ReachableNonNil (e.SetPasswordlessEmail (some p))
  | unmarshalJSON (e e' : ConnectionOptionsEmail) (b : JSON) :
      ReachableNonNil e → e.UnmarshalJSON b = .ok e' → ReachableNonNil e'

/-- Members written for a passwordless email: one per set field, under the
keys syntax, from, subject, body in that order. -/
def setMembers (p : PasswordlessEmail) : List (String × JSON) :=
  [("syntax", p.Syntax), ("from", p.From), ("subject", p.Subject), ("body", p.Body)].filterMap
    fun kv => kv.2.map fun s => (kv.1, JSON.str s.text)

/-- Keys of a map are strictly increasing in byte order. -/
def keysSorted {α : Type} : List (GoString × α) → Bool
  | [] => true
  | [_] => true
  | (k, _) :: (k', v') :: m => decide (k.bytes < k'.bytes) && keysSorted ((k', v') :: m)

mutual
/-- An untyped value that survives a round trip: its floats are finite, its
strings and map keys are valid UTF-8, it holds no nil slice and no nil map,
and its maps are well represented (strictly increasing keys). -/
def Any.canonical : Any → Bool
  | .nil => true
  | .bool _ => true
  | .float64 (.finite _) => true
  | .float64 _ => false
  | .string s => s.validUTF8
  | .nilSlice => false
  | .slice xs => canonicalList xs
  | .nilMap => false
  | .map m => keysSorted m && canonicalEntries m
/-- The same for the elements of a slice. -/
def canonicalList : List Any → Bool
  | [] => true
  | x :: xs => x.canonical && canonicalList xs
/-- The same for the entries of a map. -/
def canonicalEntries : List (GoString × Any) → Bool
  | [] => true
  | (k, v) :: m => k.validUTF8 && v.canonical && canonicalEntries m
end

mutual
/-- An untyped value the encoder accepts: every float in it is finite. -/
def Any.supported : Any → Bool
  | .float64 (.finite _) => true
  | .float64 _ => false
  | .slice xs => supportedList xs
  | .map m => supportedEntries m
  | _ => true
/-- The same for the elements of a slice. -/
def supportedList : List Any → Bool
  | [] => true
  | x :: xs => x.supported && supportedList xs
/-- The same for the entries of a map. -/
def supportedEntries : List (GoString × Any) → Bool
  | [] => true
  | (_, v) :: m => v.supported && supportedEntries m
end

/-- A slice field the encoder accepts. -/
def sliceSupported (s : SliceAny) : Bool :=
  match s with
  | none => true
  | some xs => supportedList xs

/-- A map field the encoder accepts. -/
def mapSupported (m : MapStringAny) : Bool :=
  match m with
  | none => true
  | some es => supportedEntries es

/-- A `*interface{}` field the encoder accepts. -/
def anyPtrSupported (p : Option Any) : Bool :=
  match p with
  | none => true
  | some a => a.supported

/-- A slice field that survives a round trip: nil, or non-empty with
elements that do. -/
def sliceRoundTrips (s : SliceAny) : Bool :=
  match s with
  | none => true
  | some xs => !xs.isEmpty && canonicalList xs

/-- A map field that survives a round trip: nil, or non-empty, well
represented and with entries that do. -/
def mapRoundTrips (m : MapStringAny) : Bool :=
  match m with
  | none => true
  | some es => !es.isEmpty && keysSorted es && canonicalEntries es

/-- A `*interface{}` field that survives a round trip: nil, or pointing to a
non-nil value that does. -/
def anyPtrRoundTrips (p : Option Any) : Bool :=
  match p with
  | none => true
  | some .nil => false
  | some a => a.canonical

/-- An `*int` field whose value is a Go `int`. -/
def intPtrInRange (p : Option Int) : Bool :=
  match p with
  | none => true
  | some i => decide (inIntRange i)

/-- The `PasswordlessEmail` values whose strings are valid UTF-8. -/
def PasswordlessEmail.roundTrips (p : PasswordlessEmail) : Bool :=
  stringPtrValid p.Syntax && stringPtrValid p.From && stringPtrValid p.Subject &&
  stringPtrValid p.Body

/-- An email field that survives a round trip: nil, or a union holding a
non-nil `*bool` or a non-nil `*PasswordlessEmail` whose strings are valid
UTF-8. -/
def emailRoundTrips (p : Option ConnectionOptionsEmail) : Bool :=
  match p with
  | none => true
  | some ⟨.bool (some _)⟩ => true
  | some ⟨.email (some e)⟩ => e.roundTrips
  | some _ => false

/-- The `ConnectionOptionsTotp` values whose integers are Go `int`s. -/
def ConnectionOptionsTotp.roundTrips (t : ConnectionOptionsTotp) : Bool :=
  intPtrInRange t.TimeStep && intPtrInRange t.Length

/-- The `ConnectionOptions` values that survive a round trip, field by field. -/
def ConnectionOptions.roundTrips (o : ConnectionOptions) : Bool :=
  mapRoundTrips o.Validation &&
  stringPtrValid o.PasswordPolicy &&
  mapRoundTrips o.PasswordHistory &&
  mapRoundTrips o.PasswordNoPersonalInfo &&
  mapRoundTrips o.PasswordDictionary &&
  mapRoundTrips o.PasswordComplexityOptions &&
  anyPtrRoundTrips o.UpstreamParams &&
  stringPtrValid o.ClientID &&
  stringPtrValid o.ClientSecret &&
  stringPtrValid o.TenantDomain &&
  sliceRoundTrips o.DomainAliases &&
  stringPtrValid o.WaadProtocol &&
  stringPtrValid o.AppID &&
  stringPtrValid o.AppDomain &&
  stringPtrValid o.MaxGroupsToRetrieve &&
  mapRoundTrips o.CustomScripts &&
  mapRoundTrips o.Configuration &&
  (match o.Totp with
   | none => true
   | some t => t.roundTrips) &&
  stringPtrValid o.Name &&
  stringPtrValid o.TwilioSid &&
  stringPtrValid o.TwilioToken &&
  stringPtrValid o.From &&
  stringPtrValid o.Syntax &&
  stringPtrValid o.Template &&
  stringPtrValid o.MessagingServiceSid &&
  stringPtrValid o.AdfsServer &&
  stringPtrValid o.CommunityBaseURL &&
  emailRoundTrips o.Email &&
  intPtrInRange o.StrategyVersion

/-- The `ConnectionOptions` values the encoder accepts. -/
def ConnectionOptions.encodable (o : ConnectionOptions) : Bool :=
  mapSupported o.Validation &&
  mapSupported o.PasswordHistory &&
  mapSupported o.PasswordNoPersonalInfo &&
  mapSupported o.PasswordDictionary &&
  mapSupported o.PasswordComplexityOptions &&
  anyPtrSupported o.UpstreamParams &&
  sliceSupported o.DomainAliases &&
  mapSupported o.CustomScripts &&
  mapSupported o.Configuration

/-- The `Connection` values whose fields survive a round trip. -/
def Connection.fieldsRoundTrip (c : Connection) : Bool :=
  stringPtrValid c.ID &&
  stringPtrValid c.Name &&
  stringPtrValid c.Strategy &&
  (match c.Options with
   | none => true
   | some o => o.roundTrips) &&
  sliceRoundTrips c.EnabledClients &&
  sliceRoundTrips c.Realms &&
  anyPtrRoundTrips c.Metadata

/-- The `Connection` values the encoder accepts. -/
def Connection.encodable (c : Connection) : Bool :=
  (match c.Options with
   | none => true
   | some o => o.encodable) &&
  sliceSupported c.EnabledClients &&
  sliceSupported c.Realms &&
  anyPtrSupported c.Metadata

/-- The encoding of the connection nests no deeper than the decoder accepts. -/
def Connection.withinDepth (c : Connection) : Bool :=
  match c.marshal with
  | .ok b => decide (b.depth ≤ maxNestingDepth)
  | .error _ => false

/-- The `Connection` values that survive a round trip. -/
def Connection.roundTrips (c : Connection) : Bool :=
  c.fieldsRoundTrip && c.withinDepth

/-- Encoding a connection and decoding the result into a fresh connection. -/
def Connection.roundTrip (c : Connection) : Except JSONError Connection :=
  match c.marshal with
  | .error err => .error err
  | .ok b => Connection.unmarshal b

/-! ## Sample values -/

/-- A connection with scalar, nested, list, map, untyped and email fields set. -/
def sampleConnection : Connection :=
  { Connection.zero with
    ID := some (GoString.ofText "con_1")
    Name := some (GoString.ofText "my-database")
    Strategy := some (GoString.ofText "auth0")
    IsDomainConnection := some false
    Options := some { ConnectionOptions.zero with
      Validation := some [(GoString.ofText "username",
        .map [(GoString.ofText "max", .float64 (.finite (.int 15))),
              (GoString.ofText "min", .float64 (.finite (.int 1)))])]
      PasswordPolicy := some (GoString.ofText "")
      BruteForceProtection := some false
      UpstreamParams := some (.map [])
      DomainAliases := some [.string (GoString.ofText "example.com")]
      Totp := some ⟨some 180, some 0⟩
      Email := some ⟨.bool (some false)⟩
      StrategyVersion := some 2 }
    EnabledClients := some [.string (GoString.ofText "client-a"), .nil]
    Metadata := some (.slice []) }

/-- A connection whose `EnabledClients` is the empty, non-nil slice. -/
def emptyClients : Connection := { Connection.zero with EnabledClients := some [] }

/-- A connection whose options hold an empty, non-nil `Validation` map. -/
def emptyValidation : Connection :=
  { Connection.zero with Options := some { ConnectionOptions.zero with Validation := some [] } }

/-- A connection whose options hold an email union that holds nothing. -/
def unsetEmail : Connection :=
  { Connection.zero with
    Options := some { ConnectionOptions.zero with Email := some ConnectionOptionsEmail.zero } }

/-- A connection whose `Metadata` points to a nil interface value. -/
def nilMetadata : Connection := { Connection.zero with Metadata := some .nil }

/-- A connection whose `Metadata` points to an interface holding a nil
`[]interface{}`. -/
def nilSliceMetadata : Connection := { Connection.zero with Metadata := some .nilSlice }

/-- A connection whose `Metadata` points to an interface holding NaN. -/
def nanMetadata : Connection := { Connection.zero with Metadata := some (.float64 .nan) }

/-- A connection whose `Name` is the three bytes `a`, 0xFF, `b`, which are not
valid UTF-8. -/
def invalidName : Connection := { Connection.zero with Name := some ⟨[0x61, 0xFF, 0x62]⟩ }

/-- Empty slice wrapped in `n` further slices. -/
def deepSlice : Nat → Any
  | 0 => .slice []
  | n + 1 => .slice [deepSlice n]

/-- Empty array wrapped in `n` further arrays. -/
def deepArray : Nat → JSON
  | 0 => .arr []
  | n + 1 => .arr [deepArray n]

/-- A connection whose `Metadata` is nested one level deeper than the decoder
accepts once it sits inside the connection object. -/
def deepMetadata : Connection :=
  { Connection.zero with Metadata := some (deepSlice maxNestingDepth) }

/-- A page holding two connections. -/
def samplePage : ConnectionList :=
  ⟨⟨[("total", .num (.int 2))]⟩, [some sampleConnection, some emptyClients]⟩

/-- A manager whose transport answers every request with `samplePage`. -/
def sampleManager : ConnectionManager :=
  ⟨⟨fun parts => String.intercalate "/" parts,
    fun opts => String.intercalate "&" (opts.map fun o => o.key ++ "=" ++ o.value),
    fun opts => opts,
    fun _ => (some samplePage, none)⟩⟩

/-! ## Laws of a field table -/

/-- Accessor laws of a field table, read along the table: `acc s z` is `z`
with the fields met so far overwritten by those of `s`.  Each field still
reads in `acc s z` what it reads in `z`, storing the value a field already
holds changes nothing, and once every field is overwritten the result is `s`. -/
def FramedFrom {S : Type} (acc : S → S → S) : List (StructField S) → Prop
  | [] => ∀ s z, acc s z = s
  | f :: rest =>
    (∀ s z, f.get (acc s z) = f.get z) ∧ (∀ s, f.set s (f.get s) = s) ∧
      FramedFrom (fun s z => f.set (acc s z) (f.get s)) rest

/-- The accessors of a field table behave like the fields of a record, and
the wire names are pairwise distinct. -/
structure LawfulFields {S : Type} (fields : List (StructField S)) : Prop where
  nodup : (fields.map fun f => f.name).Nodup
  framed : FramedFrom (fun _ z => z) fields

/-- Value `x` of a field survives encoding followed by decoding over `z`:
when the field is left out, `z` is already `x`; otherwise the value written
for `x` decodes, over `z`, to `x`. -/
def ValueRoundTrips {T : Type} (c : Codec T) (omitEmpty : Bool) (x z : T) : Prop :=
  if (omitEmpty && c.isEmptyValue x) = true then x = z
  else ∃ j, c.marshal x = .ok j ∧ c.unmarshal j z = .ok x

/-- Field `f` of `s` survives encoding followed by decoding into `z`. -/
def FieldRoundTrips {S : Type} (f : StructField S) (s z : S) : Prop :=
  ValueRoundTrips f.codec f.omitEmpty (f.get s) (f.get z)

/-! ## Polymorphic field codec -/

theorem unmarshalMembers_cons_found {S : Type} (fields : List (StructField S)) (k : String)
    (v : JSON) (rest : List (String × JSON)) (s : S) (f : StructField S)
    (hf : findField fields k = some f) (x : f.T) (hx : f.codec.unmarshal v (f.get s) = .ok x) :
    unmarshalMembers fields ((k, v) :: rest) s = unmarshalMembers fields rest (f.set s x) := by
  simp only [unmarshalMembers, hf, hx]

theorem unmarshalMembers_strings (members : List (String × String))
    (hkeys : ∀ m ∈ members, m.1 ∈ ["syntax", "from", "subject", "body"]) :
    ∀ p : PasswordlessEmail,
      unmarshalMembers PasswordlessEmail.fields (members.map fun m => (m.1, JSON.str m.2)) p =
        .ok ⟨(lastValue "syntax" members).map GoString.ofText <|> p.Syntax,
             (lastValue "from" members).map GoString.ofText <|> p.From,
             (lastValue "subject" members).map GoString.ofText <|> p.Subject,
             (lastValue "body" members).map GoString.ofText <|> p.Body⟩ := by
  induction members with
  | nil => intro p; rfl
  | cons m ms ih =>
    intro p
    obtain ⟨k, v⟩ := m
    have hk : k ∈ ["syntax", "from", "subject", "body"] := hkeys (k, v) (List.mem_cons_self _ _)
    have ih' := ih (fun m hm => hkeys m (List.mem_cons_of_mem _ hm))
    simp only [List.mem_cons, List.mem_singleton, List.not_mem_nil, or_false] at hk
    have hstep : ∀ (key : String) (f : StructField PasswordlessEmail)
        (_ : findField PasswordlessEmail.fields key = some f) (x : f.T)
        (_ : f.codec.unmarshal (.str v) (f.get p) = .ok x),
        unmarshalMembers PasswordlessEmail.fields
          (((key, v) :: ms).map fun m => (m.1, JSON.str m.2)) p =
        .ok ⟨(lastValue "syntax" ms).map GoString.ofText <|> (f.set p x).Syntax,
             (lastValue "from" ms).map GoString.ofText <|> (f.set p x).From,
             (lastValue "subject" ms).map GoString.ofText <|> (f.set p x).Subject,
             (lastValue "body" ms).map GoString.ofText <|> (f.set p x).Body⟩ := by
      intro key f hf x hx
      rw [List.map_cons, unmarshalMembers_cons_found _ _ _ _ _ f hf x hx, ih']
    rcases hk with rfl | rfl | rfl | rfl
    · rw [hstep "syntax" _ rfl (some (GoString.ofText v)) rfl]
      simp only [lastValue]
      cases lastValue "syntax" ms <;> cases lastValue "from" ms <;>
        cases lastValue "subject" ms <;> cases lastValue "body" ms <;> simp
    · rw [hstep "from" _ rfl (some (GoString.ofText v)) rfl]
      simp only [lastValue]
      cases lastValue "syntax" ms <;> cases lastValue "from" ms <;>
        cases lastValue "subject" ms <;> cases lastValue "body" ms <;> simp
    · rw [hstep "subject" _ rfl (some (GoString.ofText v)) rfl]
      simp only [lastValue]
      cases lastValue "syntax" ms <;> cases lastValue "from" ms <;>
        cases lastValue "subject" ms <;> cases lastValue "body" ms <;> simp
    · rw [hstep "body" _ rfl (some (GoString.ofText v)) rfl]
      simp only [lastValue]
      cases lastValue "syntax" ms <;> cases lastValue "from" ms <;>
        cases lastValue "subject" ms <;> cases lastValue "body" ms <;> simp

theorem depthMembers_strings (members : List (String × String)) :
    depthMembers (members.map fun m => (m.1, JSON.str m.2)) = 0 := by
  induction members with
  | nil => rfl
  | cons m ms ih => simp only [List.map_cons, depthMembers, JSON.depth, ih, max_self]

theorem jsonUnmarshal_shallow {T : Type} (c : Codec T) (b : JSON) (v : T)
    (h : b.depth ≤ maxNestingDepth) : jsonUnmarshal c b v = c.unmarshal b v := by
  simp only [jsonUnmarshal, Nat.not_lt.mpr h, if_false]

/-- C1: a JSON object whose keys are among syntax, from, subject and body,
each bound to a string, is accepted by `UnmarshalJSON`; afterwards
`PasswordlessEmail()` returns the decoded object with matched = true, every
field holding the value bound to its key (the last one if the key repeats) or
unset when the key is absent, and `Bool()` returns (nil, false). -/
theorem C1_unmarshal_object (e : ConnectionOptionsEmail) (members : List (String × String))
    (hkeys : ∀ m ∈ members, m.1 ∈ ["syntax", "from", "subject", "body"]) :
    ∃ e', e.UnmarshalJSON (.obj (members.map fun m => (m.1, JSON.str m.2))) = .ok e' ∧
      ConnectionOptionsEmail.PasswordlessEmail (some e') =
        (some ⟨(lastValue "syntax" members).map GoString.ofText,
               (lastValue "from" members).map GoString.ofText,
               (lastValue "subject" members).map GoString.ofText,
               (lastValue "body" members).map GoString.ofText⟩, true) ∧
      ConnectionOptionsEmail.Bool (some e') = (none, false) := by
  have h := unmarshalMembers_strings members hkeys PasswordlessEmail.zero
  refine ⟨⟨.email (some ⟨(lastValue "syntax" members).map GoString.ofText,
    (lastValue "from" members).map GoString.ofText,
    (lastValue "subject" members).map GoString.ofText,
    (lastValue "body" members).map GoString.ofText⟩)⟩, ?_, rfl, rfl⟩
  have hd : (JSON.obj (members.map fun m => (m.1, JSON.str m.2))).depth ≤ maxNestingDepth := by
    simp only [JSON.depth, depthMembers_strings, maxNestingDepth]
    decide
  have h' : jsonUnmarshal (structCodec PasswordlessEmail.fields)
      (.obj (members.map fun m => (m.1, JSON.str m.2))) PasswordlessEmail.zero =
      .ok ⟨(lastValue "syntax" members).map GoString.ofText,
           (lastValue "from" members).map GoString.ofText,
           (lastValue "subject" members).map GoString.ofText,
           (lastValue "body" members).map GoString.ofText⟩ := by
    rw [jsonUnmarshal_shallow _ _ _ hd]
    show unmarshalMembers _ _ _ = _
    rw [h]
    cases lastValue "syntax" members <;> cases lastValue "from" members <;>
      cases lastValue "subject" members <;> cases lastValue "body" members <;> rfl
  simp only [ConnectionOptionsEmail.UnmarshalJSON, h']

/-- C1 at the object with syntax "liquid" and from "a@b.com". -/
theorem C1_unmarshal_object_witness :
    (∀ m ∈ [("syntax", "liquid"), ("from", "a@b.com")],
        m.1 ∈ ["syntax", "from", "subject", "body"]) ∧
    ∃ e', ConnectionOptionsEmail.zero.UnmarshalJSON
        (.obj ([("syntax", "liquid"), ("from", "a@b.com")].map fun m => (m.1, JSON.str m.2))) = .ok e' ∧
      ConnectionOptionsEmail.PasswordlessEmail (some e') =
        (some ⟨(lastValue "syntax" [("syntax", "liquid"), ("from", "a@b.com")]).map GoString.ofText,
               (lastValue "from" [("syntax", "liquid"), ("from", "a@b.com")]).map GoString.ofText,
               (lastValue "subject" [("syntax", "liquid"), ("from", "a@b.com")]).map GoString.ofText,
               (lastValue "body" [("syntax", "liquid"), ("from", "a@b.com")]).map GoString.ofText⟩,
          true) ∧
      ConnectionOptionsEmail.Bool (some e') = (none, false) :=
  ⟨by decide, C1_unmarshal_object ConnectionOptionsEmail.zero _ (by decide)⟩

/-- C2: the JSON literal of a boolean b is accepted by `UnmarshalJSON`;
afterwards `Bool()` returns (a pointer to b, true) and `PasswordlessEmail()`
returns (nil, false), and the receiver differs from the unset union, also for
b = false. -/
theorem C2_unmarshal_bool (e : ConnectionOptionsEmail) (b : Bool) :
    ∃ e', e.UnmarshalJSON (.bool b) = .ok e' ∧
      ConnectionOptionsEmail.Bool (some e') = (some b, true) ∧
      ConnectionOptionsEmail.PasswordlessEmail (some e') = (none, false) ∧
      e' ≠ ConnectionOptionsEmail.zero :=
  ⟨⟨.bool (some b)⟩, rfl, rfl, rfl, by simp [ConnectionOptionsEmail.zero]⟩

/-- C3: a JSON string, number or array is rejected by `UnmarshalJSON` with a
decode error. -/
theorem C3_unmarshal_rejects (e : ConnectionOptionsEmail) (b : JSON)
    (hb : (∃ s, b = .str s) ∨ (∃ n, b = .num n) ∨ (∃ xs, b = .arr xs)) :
    ∃ err, e.UnmarshalJSON b = .error err := by
  rcases hb with ⟨s, rfl⟩ | ⟨n, rfl⟩ | ⟨xs, rfl⟩
  · exact ⟨.UnmarshalTypeError, rfl⟩
  · exact ⟨.UnmarshalTypeError, rfl⟩
  · by_cases hd : maxNestingDepth < (JSON.arr xs).depth
    · exact ⟨.SyntaxError, by
        simp only [ConnectionOptionsEmail.UnmarshalJSON, jsonUnmarshal, hd, if_true]⟩
    · exact ⟨.UnmarshalTypeError, by
        simp only [ConnectionOptionsEmail.UnmarshalJSON, jsonUnmarshal, hd, if_false,
          structCodec, boolCodec]⟩

/-- C3 at the string "unexpected". -/
theorem C3_unmarshal_rejects_witness :
    ((∃ s, JSON.str "unexpected" = .str s) ∨ (∃ n, JSON.str "unexpected" = .num n) ∨
      (∃ xs, JSON.str "unexpected" = .arr xs)) ∧
    ∃ err, ConnectionOptionsEmail.zero.UnmarshalJSON (.str "unexpected") = .error err :=
  ⟨Or.inl ⟨_, rfl⟩, C3_unmarshal_rejects ConnectionOptionsEmail.zero _ (Or.inl ⟨_, rfl⟩)⟩

/-- C4: `MarshalJSON` never fails and writes the held variant: the literal of
b for a held boolean b, the object of the set fields of p for a held
passwordless email p, and null when nothing was ever set. -/
theorem C4_marshal_held_variant :
    (∀ e : ConnectionOptionsEmail, ∃ j, e.MarshalJSON = .ok j) ∧
    (∀ b : Bool, (ConnectionOptionsEmail.mk (.bool (some b))).MarshalJSON = .ok (.bool b)) ∧
    (∀ p : PasswordlessEmail,
      (ConnectionOptionsEmail.mk (.email (some p))).MarshalJSON = .ok (.obj (setMembers p))) ∧
    ConnectionOptionsEmail.zero.MarshalJSON = .ok .null := by
  have hp : ∀ p : PasswordlessEmail,
      (ConnectionOptionsEmail.mk (.email (some p))).MarshalJSON = .ok (.obj (setMembers p)) := by
    rintro ⟨_ | s, _ | f, _ | u, _ | b⟩ <;> rfl
  refine ⟨?_, fun b => rfl, hp, rfl⟩
  rintro ⟨_ | ⟨_ | b⟩ | ⟨_ | p⟩⟩
  · exact ⟨_, rfl⟩
  · exact ⟨_, rfl⟩
  · exact ⟨_, rfl⟩
  · exact ⟨_, rfl⟩
  · exact ⟨_, hp p⟩

/-- C5: the read accessors are total and report a mismatch as matched = false:
both return (nil, false) on a nil receiver and on a union holding nothing,
`PasswordlessEmail()` returns (nil, false) when a `*bool` is held, `Bool()`
returns (nil, false) when a `*PasswordlessEmail` is held, and in no state do
both report matched = true. -/
theorem C5_accessors_mismatch :
    ConnectionOptionsEmail.PasswordlessEmail none = (none, false) ∧
    ConnectionOptionsEmail.Bool none = (none, false) ∧
    ConnectionOptionsEmail.PasswordlessEmail (some ⟨.nil⟩) = (none, false) ∧
    ConnectionOptionsEmail.Bool (some ⟨.nil⟩) = (none, false) ∧
    (∀ b, ConnectionOptionsEmail.PasswordlessEmail (some ⟨.bool b⟩) = (none, false)) ∧
    (∀ p, ConnectionOptionsEmail.Bool (some ⟨.email p⟩) = (none, false)) ∧
    (∀ e, ¬((ConnectionOptionsEmail.PasswordlessEmail e).2 = true ∧
            (ConnectionOptionsEmail.Bool e).2 = true)) := by
  refine ⟨rfl, rfl, rfl, rfl, fun _ => rfl, fun _ => rfl, ?_⟩
  rintro (_ | ⟨_ | _ | _⟩) <;> simp [ConnectionOptionsEmail.PasswordlessEmail, ConnectionOptionsEmail.Bool]

theorem UnmarshalJSON_stores_nonnil (e e' : ConnectionOptionsEmail) (b : JSON)
    (h : e.UnmarshalJSON b = .ok e') :
    (∃ p, e'.v = .email (some p)) ∨ (∃ q, e'.v = .bool (some q)) := by
  unfold ConnectionOptionsEmail.UnmarshalJSON at h
  cases hp : jsonUnmarshal (structCodec PasswordlessEmail.fields) b PasswordlessEmail.zero with
  | ok p =>
    rw [hp] at h
    cases h
    exact Or.inl ⟨p, rfl⟩
  | error err =>
    rw [hp] at h
    cases hq : jsonUnmarshal boolCodec b false with
    | ok q =>
      rw [hq] at h
      cases h
      exact Or.inr ⟨q, rfl⟩
    | error err' =>
      rw [hq] at h
      cases h

theorem UnmarshalJSON_email_only_object_or_null (e e' : ConnectionOptionsEmail) (b : JSON)
    (h : e.UnmarshalJSON b = .ok e')
    (hm : (ConnectionOptionsEmail.PasswordlessEmail (some e')).2 = true) :
    b = .null ∨ ∃ members, b = .obj members := by
  cases b with
  | null => exact Or.inl rfl
  | obj members => exact Or.inr ⟨members, rfl⟩
  | bool q =>
    cases h
    cases hm
  | num n => cases h
  | str t => cases h
  | arr xs =>
    by_cases hd : maxNestingDepth < (JSON.arr xs).depth
    · simp [ConnectionOptionsEmail.UnmarshalJSON, jsonUnmarshal, hd] at h
    · simp [ConnectionOptionsEmail.UnmarshalJSON, jsonUnmarshal, hd, structCodec, boolCodec] at h

theorem nonnil_of_reachableNonNil (e : ConnectionOptionsEmail) (h : ReachableNonNil e) :
    ((ConnectionOptionsEmail.Bool (some e)).2 = true →
      (ConnectionOptionsEmail.Bool (some e)).1 ≠ none) ∧
    ((ConnectionOptionsEmail.PasswordlessEmail (some e)).2 = true →
      (ConnectionOptionsEmail.PasswordlessEmail (some e)).1 ≠ none) := by
  have key : ∀ e : ConnectionOptionsEmail,
      ((∃ p, e.v = .email (some p)) ∨ (∃ q, e.v = .bool (some q)) ∨ e.v = .nil) →
      ((ConnectionOptionsEmail.Bool (some e)).2 = true →
        (ConnectionOptionsEmail.Bool (some e)).1 ≠ none) ∧
      ((ConnectionOptionsEmail.PasswordlessEmail (some e)).2 = true →
        (ConnectionOptionsEmail.PasswordlessEmail (some e)).1 ≠ none) := by
    rintro ⟨v⟩ (⟨p, hp⟩ | ⟨q, hq⟩ | hn)
    · simp only at hp
      subst hp
      simp [ConnectionOptionsEmail.PasswordlessEmail, ConnectionOptionsEmail.Bool]
    · simp only at hq
      subst hq
      simp [ConnectionOptionsEmail.PasswordlessEmail, ConnectionOptionsEmail.Bool]
    · simp only at hn
      subst hn
      simp [ConnectionOptionsEmail.PasswordlessEmail, ConnectionOptionsEmail.Bool]
  cases h with
  | zero => exact key _ (Or.inr (Or.inr rfl))
  | setBool e0 b _ => exact key _ (Or.inr (Or.inl ⟨b, rfl⟩))
  | setPasswordlessEmail e0 p _ => exact key _ (Or.inl ⟨p, rfl⟩)
  | unmarshalJSON e0 _ b _ hu =>
    rcases UnmarshalJSON_stores_nonnil e0 _ b hu with hp | hq
    · exact key _ (Or.inl hp)
    · exact key _ (Or.inr (Or.inl hq))

/-- C9 (the code at the literal null): `UnmarshalJSON` accepts null, which is
not an object, and commits to the passwordless-email variant with no field
set. -/
theorem C9_null_decoded_as_passwordless_email :
    ConnectionOptionsEmail.zero.UnmarshalJSON .null = .ok ⟨.email (some PasswordlessEmail.zero)⟩ ∧
    ConnectionOptionsEmail.PasswordlessEmail (some ⟨.email (some PasswordlessEmail.zero)⟩) =
      (some PasswordlessEmail.zero, true) ∧
    ¬ ∃ members, JSON.null = .obj members :=
  ⟨rfl, rfl, by simp⟩

/-- C10 (the code after a setter was handed a nil pointer): the state is
reachable and the accessor of the stored type reports matched = true together
with a nil pointer. -/
theorem C10_nil_pointer_reported_as_matched :
    Reachable (ConnectionOptionsEmail.zero.SetBool none) ∧
    ConnectionOptionsEmail.Bool (some (ConnectionOptionsEmail.zero.SetBool none)) = (none, true) ∧
    Reachable (ConnectionOptionsEmail.zero.SetPasswordlessEmail none) ∧
    ConnectionOptionsEmail.PasswordlessEmail
      (some (ConnectionOptionsEmail.zero.SetPasswordlessEmail none)) = (none, true) :=
  ⟨.setBool _ _ .zero, rfl, .setPasswordlessEmail _ _ .zero, rfl⟩

/-! ## Generic facts on struct encoding and decoding -/

theorem find?_name_of_mem {S : Type} (f : StructField S) :
    ∀ fields : List (StructField S), (fields.map fun g => g.name).Nodup → f ∈ fields →
      fields.find? (fun g => g.name == f.name) = some f := by
  intro fields
  induction fields with
  | nil => intro _ hf; cases hf
  | cons g gs ih =>
    intro hnd hf
    rw [List.map_cons, List.nodup_cons] at hnd
    rcases List.mem_cons.mp hf with rfl | hmem
    · simp [List.find?]
    · have hne : g.name ≠ f.name := by
        intro h
        exact hnd.1 (h ▸ List.mem_map_of_mem (fun g => g.name) hmem)
      have hb : (g.name == f.name) = false := by simpa using hne
      simp only [List.find?, hb, ih hnd.2 hmem]

theorem findField_of_mem {S : Type} (fields : List (StructField S)) (f : StructField S)
    (hnd : (fields.map fun g => g.name).Nodup) (hf : f ∈ fields) :
    findField fields f.name = some f := by
  simp only [findField, find?_name_of_mem f fields hnd hf]

theorem marshalFields_keys {S : Type} (s : S) :
    ∀ fields : List (StructField S),
      (∀ f ∈ fields, ∃ j, f.codec.marshal (f.get s) = .ok j) →
      ∃ members, marshalFields fields s = .ok members ∧
        members.map Prod.fst =
          (fields.filter fun f => !(f.omitEmpty && f.codec.isEmptyValue (f.get s))).map
            fun f => f.name := by
  intro fields
  induction fields with
  | nil => intro _; exact ⟨[], rfl, rfl⟩
  | cons f fs ih =>
    intro h
    obtain ⟨rest, hrest, hkeys⟩ := ih (fun g hg => h g (List.mem_cons_of_mem _ hg))
    obtain ⟨j, hj⟩ := h f (List.mem_cons_self _ _)
    by_cases hom : (f.omitEmpty && f.codec.isEmptyValue (f.get s)) = true
    · refine ⟨rest, ?_, ?_⟩
      · simp only [marshalFields, hom, if_true, hrest]
      · simp only [List.filter_cons, hom, Bool.not_true, hkeys]
        rfl
    · refine ⟨(f.name, j) :: rest, ?_, ?_⟩
      · simp only [Bool.not_eq_true] at hom
        simp only [marshalFields, hom, hj, hrest]
        rfl
      · simp only [Bool.not_eq_true] at hom
        simp only [List.filter_cons, hom, Bool.not_false, if_true, List.map_cons, hkeys]

theorem roundTrip_suffix {S : Type} (fields : List (StructField S))
    (hnd : (fields.map fun f => f.name).Nodup) (s z : S)
    (hrt : ∀ f ∈ fields, FieldRoundTrips f s z) :
    ∀ (suf pre : List (StructField S)) (acc : S → S → S), fields = pre ++ suf →
      FramedFrom acc suf →
      ∃ members, marshalFields suf s = .ok members ∧
        unmarshalMembers fields members (acc s z) = .ok s := by
  intro suf
  induction suf with
  | nil =>
    intro pre acc _ hfr
    refine ⟨[], rfl, ?_⟩
    rw [hfr s z]
    rfl
  | cons f suf ih =>
    intro pre acc hfields hfr
    obtain ⟨hget, hsetget, hrest⟩ := hfr
    have hfields' : fields = (pre ++ [f]) ++ suf := by
      rw [hfields, List.append_assoc]
      rfl
    have hfmem : f ∈ fields := by
      rw [hfields]
      exact List.mem_append_right _ (List.mem_cons_self _ _)
    have hf := hrt f hfmem
    unfold FieldRoundTrips ValueRoundTrips at hf
    obtain ⟨members, hm, hu⟩ := ih (pre ++ [f]) (fun s z => f.set (acc s z) (f.get s))
      hfields' hrest
    by_cases hom : (f.omitEmpty && f.codec.isEmptyValue (f.get s)) = true
    · rw [if_pos hom] at hf
      refine ⟨members, by simp only [marshalFields, hom, if_true, hm], ?_⟩
      have hsame : f.set (acc s z) (f.get s) = acc s z := by
        rw [hf, ← hget s z]
        exact hsetget _
      rw [← hsame]
      exact hu
    · rw [if_neg hom] at hf
      obtain ⟨j, hj, hdec⟩ := hf
      rw [← hget s z] at hdec
      refine ⟨(f.name, j) :: members, ?_, ?_⟩
      · simp only [Bool.not_eq_true] at hom
        simp only [marshalFields, hom, hj, hm]
        rfl
      · rw [unmarshalMembers_cons_found fields f.name j members (acc s z) f
          (findField_of_mem fields f hnd hfmem) (f.get s) hdec]
        exact hu

theorem struct_roundTrip {S : Type} (fields : List (StructField S)) (hl : LawfulFields fields)
    (s z : S) (hrt : ∀ f ∈ fields, FieldRoundTrips f s z) :
    ∃ members, (structCodec fields).marshal s = .ok (.obj members) ∧
      (structCodec fields).unmarshal (.obj members) z = .ok s := by
  obtain ⟨members, hm, hu⟩ := roundTrip_suffix fields hl.nodup s z hrt fields []
    (fun _ z => z) rfl hl.framed
  refine ⟨members, ?_, hu⟩
  simp only [structCodec, hm]

/-! ## The field tables are lawful -/

theorem lawful_PasswordlessEmail : LawfulFields PasswordlessEmail.fields where
  nodup := by decide
  framed := by
    unfold PasswordlessEmail.fields
    repeat (first
      | exact fun _ _ => rfl
      | refine ⟨fun _ _ => rfl, fun _ => rfl, ?_⟩)

theorem lawful_ConnectionOptionsTotp : LawfulFields ConnectionOptionsTotp.fields where
  nodup := by decide
  framed := by
    unfold ConnectionOptionsTotp.fields
    repeat (first
      | exact fun _ _ => rfl
      | refine ⟨fun _ _ => rfl, fun _ => rfl, ?_⟩)

theorem lawful_Connection : LawfulFields Connection.fields where
  nodup := by decide
  framed := by
    unfold Connection.fields
    repeat (first
      | exact fun _ _ => rfl
      | refine ⟨fun _ _ => rfl, fun _ => rfl, ?_⟩)

set_option maxRecDepth 100000 in
theorem lawful_ConnectionOptions : LawfulFields ConnectionOptions.fields where
  nodup := by decide
  framed := by
    unfold ConnectionOptions.fields
    repeat (first
      | exact fun _ _ => rfl
      | refine ⟨fun _ _ => rfl, fun _ => rfl, ?_⟩)

/-! ## Untyped values survive a round trip -/

theorem keysSorted_cons {α : Type} (k : GoString) (v : α) :
    ∀ m : List (GoString × α), keysSorted ((k, v) :: m) = true →
      (∀ e ∈ m, k.bytes < e.1.bytes) ∧ keysSorted m = true := by
  intro m
  induction m generalizing k v with
  | nil => intro _; exact ⟨fun e he => (by cases he), rfl⟩
  | cons e m ih =>
    obtain ⟨k', v'⟩ := e
    intro h
    simp only [keysSorted, Bool.and_eq_true, decide_eq_true_eq] at h
    obtain ⟨hlt, hs⟩ := h
    obtain ⟨hall, _⟩ := ih k' v' hs
    refine ⟨?_, hs⟩
    intro e he
    rcases List.mem_cons.mp he with rfl | he
    · exact hlt
    · exact lt_trans hlt (hall e he)

theorem mapInsert_last {α : Type} (k : GoString) (v : α) :
    ∀ acc : List (GoString × α), (∀ e ∈ acc, e.1.bytes < k.bytes) →
      mapInsert k v acc = acc ++ [(k, v)] := by
  intro acc
  induction acc with
  | nil => intro _; rfl
  | cons e acc ih =>
    obtain ⟨k', v'⟩ := e
    intro h
    have hlt : k'.bytes < k.bytes := h (k', v') (List.mem_cons_self _ _)
    have h1 : ¬ k.bytes < k'.bytes := lt_asymm hlt
    have h2 : ¬ k = k' := by
      rintro rfl
      exact lt_irrefl _ hlt
    simp only [mapInsert, h1, h2, if_false, List.cons_append,
      ih (fun e he => h e (List.mem_cons_of_mem _ he))]

theorem ofText_text (g : GoString) (h : g.validUTF8 = true) : GoString.ofText g.text = g := by
  simpa [GoString.validUTF8] using h

theorem char_range (c : Char) : c.toNat < 0xD800 ∨ (0xDFFF < c.toNat ∧ c.toNat < 0x110000) := by
  have h := c.valid
  simp only [UInt32.isValidChar, Nat.isValidChar] at h
  exact h

theorem utf8Decode_encodeChar (c : Char) (tail : List Nat) :
    utf8Decode 0 (utf8EncodeChar c ++ tail) = c :: utf8Decode 0 tail := by
  have hr := char_range c
  have hc : Char.ofNat c.toNat = c := Char.ofNat_toNat c
  generalize hn : c.toNat = n at hr hc
  unfold utf8EncodeChar
  simp only [hn]
  by_cases h1 : n < 0x80
  · simp only [h1, if_true, List.singleton_append, utf8Decode, decodeRune, hc]
  · by_cases h2 : n < 0x800
    · have e : (0xC0 + n / 0x40 - 0xC0) * 0x40 + (0x80 + n % 0x40 - 0x80) = n := by omega
      have a1 : ¬ (0xC0 + n / 0x40 < 0x80) := by omega
      have a2 : 0xC2 ≤ 0xC0 + n / 0x40 := by omega
      have a3 : 0xC0 + n / 0x40 ≤ 0xDF := by omega
      have a4 : 0x80 ≤ 0x80 + n % 0x40 := by omega
      have a5 : 0x80 + n % 0x40 ≤ 0xBF := by omega
      simp only [h1, h2, if_true, if_false, List.cons_append, List.nil_append, utf8Decode,
        decodeRune, List.getD_cons_zero, isCont, a1, a2, a3, a4, a5, decide_True, Bool.and_self,
        e, hc]
    · by_cases h3 : n < 0x10000
      · have e : (0xE0 + n / 0x1000 - 0xE0) * 0x1000 + (0x80 + n / 0x40 % 0x40 - 0x80) * 0x40 +
            (0x80 + n % 0x40 - 0x80) = n := by omega
        have a1 : ¬ (0xE0 + n / 0x1000 < 0x80) := by omega
        have a2 : ¬ (0xE0 + n / 0x1000 ≤ 0xDF) := by omega
        have a3 : (((0xE0 + n / 0x1000 == 0xE0 && decide (0xA0 ≤ 0x80 + n / 0x40 % 0x40) &&
              decide (0x80 + n / 0x40 % 0x40 ≤ 0xBF)) ||
            (decide (0xE1 ≤ 0xE0 + n / 0x1000) && decide (0xE0 + n / 0x1000 ≤ 0xEC) &&
              isCont (0x80 + n / 0x40 % 0x40)) ||
            (0xE0 + n / 0x1000 == 0xED && decide (0x80 ≤ 0x80 + n / 0x40 % 0x40) &&
              decide (0x80 + n / 0x40 % 0x40 ≤ 0x9F)) ||
            (decide (0xEE ≤ 0xE0 + n / 0x1000) && decide (0xE0 + n / 0x1000 ≤ 0xEF) &&
              isCont (0x80 + n / 0x40 % 0x40))) &&
            isCont (0x80 + n % 0x40)) = true := by
          simp only [isCont, Bool.and_eq_true, Bool.or_eq_true, beq_iff_eq, decide_eq_true_eq]
          omega
        simp only [h1, h2, h3, if_true, if_false, List.cons_append, List.nil_append, utf8Decode,
          decodeRune, List.getD_cons_zero, List.getD_cons_succ, a1, a2, a3, decide_False,
          Bool.and_false, Bool.false_and, Bool.false_eq_true, e, hc]
      · have e : (0xF0 + n / 0x40000 - 0xF0) * 0x40000 + (0x80 + n / 0x1000 % 0x40 - 0x80) * 0x1000 +
            (0x80 + n / 0x40 % 0x40 - 0x80) * 0x40 + (0x80 + n % 0x40 - 0x80) = n := by omega
        have a1 : ¬ (0xF0 + n / 0x40000 < 0x80) := by omega
        have a2 : ¬ (0xF0 + n / 0x40000 ≤ 0xDF) := by omega
        have a3 : (((0xF0 + n / 0x40000 == 0xE0 && decide (0xA0 ≤ 0x80 + n / 0x1000 % 0x40) &&
              decide (0x80 + n / 0x1000 % 0x40 ≤ 0xBF)) ||
            (decide (0xE1 ≤ 0xF0 + n / 0x40000) && decide (0xF0 + n / 0x40000 ≤ 0xEC) &&
              isCont (0x80 + n / 0x1000 % 0x40)) ||
            (0xF0 + n / 0x40000 == 0xED && decide (0x80 ≤ 0x80 + n / 0x1000 % 0x40) &&
              decide (0x80 + n / 0x1000 % 0x40 ≤ 0x9F)) ||
            (decide (0xEE ≤ 0xF0 + n / 0x40000) && decide (0xF0 + n / 0x40000 ≤ 0xEF) &&
              isCont (0x80 + n / 0x1000 % 0x40))) &&
            isCont (0x80 + n / 0x40 % 0x40)) = false := by
          rw [Bool.eq_false_iff]
          simp only [ne_eq, isCont, Bool.and_eq_true, Bool.or_eq_true, beq_iff_eq,
            decide_eq_true_eq]
          omega
        have a4 : (((0xF0 + n / 0x40000 == 0xF0 && decide (0x90 ≤ 0x80 + n / 0x1000 % 0x40) &&
              decide (0x80 + n / 0x1000 % 0x40 ≤ 0xBF)) ||
            (decide (0xF1 ≤ 0xF0 + n / 0x40000) && decide (0xF0 + n / 0x40000 ≤ 0xF3) &&
              isCont (0x80 + n / 0x1000 % 0x40)) ||
            (0xF0 + n / 0x40000 == 0xF4 && decide (0x80 ≤ 0x80 + n / 0x1000 % 0x40) &&
              decide (0x80 + n / 0x1000 % 0x40 ≤ 0x8F))) &&
            isCont (0x80 + n / 0x40 % 0x40) && isCont (0x80 + n % 0x40)) = true := by
          simp only [isCont, Bool.and_eq_true, Bool.or_eq_true, beq_iff_eq, decide_eq_true_eq]
          omega
        simp only [h1, h2, h3, if_true, if_false, List.cons_append, List.nil_append, utf8Decode,
          decodeRune, List.getD_cons_zero, List.getD_cons_succ, a1, a2, a3, a4, decide_False,
          Bool.and_false, Bool.false_and, Bool.false_eq_true, e, hc]

theorem utf8Decode_encode (cs : List Char) : utf8Decode 0 (cs.flatMap utf8EncodeChar) = cs := by
  induction cs with
  | nil => rfl
  | cons c cs ih => rw [List.flatMap_cons, utf8Decode_encodeChar, ih]

theorem text_ofText (s : String) : (GoString.ofText s).text = s := by
  simp only [GoString.text, GoString.ofText, utf8Decode_encode]

theorem validUTF8_iff (g : GoString) : g.validUTF8 = true ↔ ∃ s : String, g = GoString.ofText s := by
  constructor
  · intro h
    exact ⟨g.text, (ofText_text g h).symm⟩
  · rintro ⟨s, rfl⟩
    simp only [GoString.validUTF8, text_ofText, decide_True]

mutual
theorem decAny_encAny : ∀ a : Any, a.canonical = true → ∃ j, encAny a = .ok j ∧ decAny j = a
  | .nil, _ => ⟨.null, rfl, rfl⟩
  | .bool b, _ => ⟨.bool b, rfl, rfl⟩
  | .float64 (.finite n), _ => ⟨.num n, rfl, rfl⟩
  | .float64 .nan, h => by simp [Any.canonical] at h
  | .float64 .posInf, h => by simp [Any.canonical] at h
  | .float64 .negInf, h => by simp [Any.canonical] at h
  | .string s, h => by
    simp only [Any.canonical] at h
    exact ⟨.str s.text, rfl, by simp only [decAny, ofText_text s h]⟩
  | .nilSlice, h => by simp [Any.canonical] at h
  | .nilMap, h => by simp [Any.canonical] at h
  | .slice xs, h => by
    simp only [Any.canonical] at h
    obtain ⟨js, hjs, hdec⟩ := decList_encList xs h
    exact ⟨.arr js, by simp only [encAny, hjs], by simp only [decAny, hdec]⟩
  | .map m, h => by
    simp only [Any.canonical, Bool.and_eq_true] at h
    obtain ⟨ms, hms, hdec⟩ := decMembers_encEntries m [] h.2 h.1 (fun e he => by cases he)
    exact ⟨.obj ms, by simp only [encAny, hms], by simp only [decAny, hdec, List.nil_append]⟩
theorem decList_encList : ∀ xs : List Any, canonicalList xs = true →
    ∃ js, encList xs = .ok js ∧ decList js = xs
  | [], _ => ⟨[], rfl, rfl⟩
  | x :: xs, h => by
    simp only [canonicalList, Bool.and_eq_true] at h
    obtain ⟨j, hj, hd⟩ := decAny_encAny x h.1
    obtain ⟨js, hjs, hds⟩ := decList_encList xs h.2
    exact ⟨j :: js, by simp only [encList, hj, hjs], by simp only [decList, hd, hds]⟩
theorem decMembers_encEntries : ∀ (m acc : List (GoString × Any)), canonicalEntries m = true →
    keysSorted m = true → (∀ e ∈ acc, ∀ e' ∈ m, e.1.bytes < e'.1.bytes) →
    ∃ ms, encEntries m = .ok ms ∧ decMembers acc ms = acc ++ m
  | [], acc, _, _, _ => ⟨[], rfl, by simp only [decMembers, List.append_nil]⟩
  | (k, v) :: m, acc, hc, hs, hlt => by
    simp only [canonicalEntries, Bool.and_eq_true] at hc
    obtain ⟨hall, hs'⟩ := keysSorted_cons k v m hs
    obtain ⟨j, hj, hd⟩ := decAny_encAny v hc.1.2
    have hins : mapInsert (GoString.ofText k.text) (decAny j) acc = acc ++ [(k, v)] := by
      rw [hd, ofText_text k hc.1.1]
      exact mapInsert_last k v acc (fun e he => hlt e he (k, v) (List.mem_cons_self _ _))
    obtain ⟨ms, hms, hdm⟩ := decMembers_encEntries m (acc ++ [(k, v)]) hc.2 hs' (by
      intro e he e' he'
      rcases List.mem_append.mp he with h | h
      · exact hlt e h e' (List.mem_cons_of_mem _ he')
      · rw [List.mem_singleton.mp h]
        exact hall e' he')
    exact ⟨(k.text, j) :: ms, by simp only [encEntries, hj, hms],
      by simp only [decMembers, hins, hdm, List.append_assoc, List.singleton_append]⟩
end

theorem encAny_ne_null (a : Any) (j : JSON) (hne : a ≠ .nil) (hc : a.canonical = true)
    (hj : encAny a = .ok j) : j ≠ .null := by
  cases a with
  | nil => exact absurd rfl hne
  | bool b => cases hj; simp
  | float64 f =>
    cases f with
    | finite n => cases hj; simp
    | nan => cases hj
    | posInf => cases hj
    | negInf => cases hj
  | string t => cases hj; simp
  | nilSlice => simp [Any.canonical] at hc
  | nilMap => simp [Any.canonical] at hc
  | slice xs =>
    simp only [encAny] at hj
    cases hx : encList xs with
    | error err => simp [hx] at hj
    | ok js =>
      simp only [hx, Except.ok.injEq] at hj
      rw [← hj]
      simp
  | map m =>
    simp only [encAny] at hj
    cases hx : encEntries m with
    | error err => simp [hx] at hj
    | ok ms =>
      simp only [hx, Except.ok.injEq] at hj
      rw [← hj]
      simp

/-! ## Field values survive a round trip -/

theorem vrt_stringPtr (omitEmpty : Bool) (x : Option GoString) (h : stringPtrValid x = true) :
    ValueRoundTrips (ptr stringCodec ⟨[]⟩) omitEmpty x none := by
  unfold ValueRoundTrips
  cases x with
  | none => cases omitEmpty <;> simp [ptr, stringCodec, Except.map]
  | some g =>
    simp only [stringPtrValid] at h
    cases omitEmpty <;> simp [ptr, stringCodec, Except.map, ofText_text g h]

theorem vrt_boolPtr (omitEmpty : Bool) (x : Option Bool) :
    ValueRoundTrips (ptr boolCodec false) omitEmpty x none := by
  unfold ValueRoundTrips
  cases x <;> cases omitEmpty <;> simp [ptr, boolCodec, Except.map]

theorem vrt_intPtr (omitEmpty : Bool) (x : Option Int) (h : intPtrInRange x = true) :
    ValueRoundTrips (ptr intCodec 0) omitEmpty x none := by
  unfold ValueRoundTrips
  cases x with
  | none => cases omitEmpty <;> simp [ptr, intCodec, Except.map]
  | some i =>
    simp only [intPtrInRange, decide_eq_true_eq] at h
    cases omitEmpty <;> simp [ptr, intCodec, Except.map, h]

theorem vrt_slice (x : SliceAny) (h : sliceRoundTrips x = true) :
    ValueRoundTrips sliceCodec true x none := by
  unfold ValueRoundTrips
  cases x with
  | none => simp [sliceCodec]
  | some xs =>
    simp only [sliceRoundTrips, Bool.and_eq_true, Bool.not_eq_true', List.isEmpty_eq_false] at h
    obtain ⟨js, hjs, hdec⟩ := decList_encList xs h.2
    cases xs with
    | nil => exact absurd rfl h.1
    | cons y ys => simp [sliceCodec, hjs, hdec]

theorem vrt_map (x : MapStringAny) (h : mapRoundTrips x = true) :
    ValueRoundTrips mapCodec true x none := by
  unfold ValueRoundTrips
  cases x with
  | none => simp [mapCodec]
  | some es =>
    simp only [mapRoundTrips, Bool.and_eq_true, Bool.not_eq_true', List.isEmpty_eq_false] at h
    obtain ⟨ms, hms, hdec⟩ := decMembers_encEntries es [] h.2 h.1.2 (fun e he => by cases he)
    cases es with
    | nil => exact absurd rfl h.1.1
    | cons y ys => simp [mapCodec, hms, hdec]

theorem ptr_unmarshal_of_ne_null {T : Type} (c : Codec T) (zero : T) (j : JSON)
    (cur : Option T) (hj : j ≠ .null) :
    (ptr c zero).unmarshal j cur = (c.unmarshal j (cur.getD zero)).map some := by
  cases j <;> first
    | exact absurd rfl hj
    | rfl

theorem vrt_anyPtr (x : Option Any) (h : anyPtrRoundTrips x = true) :
    ValueRoundTrips (ptr anyCodec .nil) true x none := by
  unfold ValueRoundTrips
  cases x with
  | none => simp [ptr]
  | some a =>
    have hne : a ≠ .nil := by
      rintro rfl
      simp [anyPtrRoundTrips] at h
    have hc : a.canonical = true := by
      cases a <;> first
        | exact absurd rfl hne
        | exact h
    obtain ⟨j, hj, hdec⟩ := decAny_encAny a hc
    have hif : ¬ ((true && (ptr anyCodec Any.nil).isEmptyValue (some a)) = true) := by
      simp [ptr]
    rw [if_neg hif]
    refine ⟨j, hj, ?_⟩
    rw [ptr_unmarshal_of_ne_null _ _ _ _ (encAny_ne_null a j hne hc hj)]
    simp only [anyCodec, hdec, Except.map]

theorem vrt_structPtr {S : Type} (fields : List (StructField S)) (hl : LawfulFields fields)
    (zero : S) (x : Option S)
    (h : ∀ v, x = some v → ∀ f ∈ fields, FieldRoundTrips f v zero) :
    ValueRoundTrips (ptr (structCodec fields) zero) true x none := by
  unfold ValueRoundTrips
  cases x with
  | none => simp [ptr]
  | some v =>
    obtain ⟨members, hm, hu⟩ := struct_roundTrip fields hl v zero (h v rfl)
    have hif : ¬ ((true && (ptr (structCodec fields) zero).isEmptyValue (some v)) = true) := by
      simp [ptr]
    rw [if_neg hif]
    refine ⟨.obj members, hm, ?_⟩
    rw [ptr_unmarshal_of_ne_null _ _ _ _ (by simp)]
    simp only [Option.getD_none, hu, Except.map]

theorem fields_roundTrip_PasswordlessEmail (p : PasswordlessEmail) (h : p.roundTrips = true) :
    ∀ f ∈ PasswordlessEmail.fields, FieldRoundTrips f p PasswordlessEmail.zero := by
  simp only [PasswordlessEmail.roundTrips, Bool.and_eq_true] at h
  intro f hf
  simp only [PasswordlessEmail.fields] at hf
  repeat (rcases List.mem_cons.mp hf with rfl | hf; · exact vrt_stringPtr _ _ (by simp only [h]))
  cases hf

theorem depth_marshal_PasswordlessEmail (p : PasswordlessEmail) (j : JSON)
    (h : (structCodec PasswordlessEmail.fields).marshal p = .ok j) :
    j.depth ≤ maxNestingDepth := by
  rcases p with ⟨_ | a, _ | b, _ | c, _ | d⟩ <;>
    (cases h; simp [JSON.depth, depthMembers, maxNestingDepth])

theorem vrt_email (x : Option ConnectionOptionsEmail) (h : emailRoundTrips x = true) :
    ValueRoundTrips emailPtrCodec true x none := by
  unfold ValueRoundTrips
  rcases x with _ | ⟨_ | ⟨_ | b⟩ | ⟨_ | p⟩⟩
  · simp [emailPtrCodec]
  · simp [emailRoundTrips] at h
  · simp [emailRoundTrips] at h
  · have hif : ¬ ((true && emailPtrCodec.isEmptyValue (some ⟨.bool (some b)⟩)) = true) := by
      simp [emailPtrCodec]
    rw [if_neg hif]
    exact ⟨.bool b, rfl, rfl⟩
  · simp [emailRoundTrips] at h
  · simp only [emailRoundTrips] at h
    obtain ⟨members, hm, hu⟩ := struct_roundTrip PasswordlessEmail.fields
      lawful_PasswordlessEmail p PasswordlessEmail.zero (fields_roundTrip_PasswordlessEmail p h)
    have hd := depth_marshal_PasswordlessEmail p _ hm
    have hif : ¬ ((true && emailPtrCodec.isEmptyValue (some ⟨.email (some p)⟩)) = true) := by
      simp [emailPtrCodec]
    rw [if_neg hif]
    refine ⟨.obj members, ?_, ?_⟩
    · simp only [emailPtrCodec, ConnectionOptionsEmail.MarshalJSON, marshalEmailValue, ptr, hm]
    · simp only [emailPtrCodec, Option.getD_none, ConnectionOptionsEmail.UnmarshalJSON,
        jsonUnmarshal_shallow _ _ _ hd, hu, Except.map, ConnectionOptionsEmail.zero]

theorem fields_roundTrip_ConnectionOptionsTotp (t : ConnectionOptionsTotp)
    (h : t.roundTrips = true) :
    ∀ f ∈ ConnectionOptionsTotp.fields, FieldRoundTrips f t ConnectionOptionsTotp.zero := by
  simp only [ConnectionOptionsTotp.roundTrips, Bool.and_eq_true] at h
  intro f hf
  simp only [ConnectionOptionsTotp.fields] at hf
  repeat (rcases List.mem_cons.mp hf with rfl | hf; · exact vrt_intPtr _ _ (by simp only [h]))
  cases hf

set_option maxRecDepth 100000 in
theorem fields_roundTrip_ConnectionOptions (o : ConnectionOptions) (h : o.roundTrips = true) :
    ∀ f ∈ ConnectionOptions.fields, FieldRoundTrips f o ConnectionOptions.zero := by
  simp only [ConnectionOptions.roundTrips, Bool.and_eq_true] at h
  have htotp : ∀ v, o.Totp = some v →
      ∀ f ∈ ConnectionOptionsTotp.fields, FieldRoundTrips f v ConnectionOptionsTotp.zero := by
    intro v hv
    have h' := h
    simp only [hv] at h'
    exact fields_roundTrip_ConnectionOptionsTotp v (by simp only [h'])
  intro f hf
  simp only [ConnectionOptions.fields] at hf
  repeat (rcases List.mem_cons.mp hf with rfl | hf
          · first
              | exact vrt_boolPtr _ _
              | exact vrt_stringPtr _ _ (by simp only [h])
              | exact vrt_map _ (by simp only [h])
              | exact vrt_slice _ (by simp only [h])
              | exact vrt_anyPtr _ (by simp only [h])
              | exact vrt_intPtr _ _ (by simp only [h])
              | exact vrt_email _ (by simp only [h])
              | exact vrt_structPtr _ lawful_ConnectionOptionsTotp _ _ htotp)
  cases hf

theorem fields_roundTrip_Connection (c : Connection) (h : c.fieldsRoundTrip = true) :
    ∀ f ∈ Connection.fields, FieldRoundTrips f c Connection.zero := by
  simp only [Connection.fieldsRoundTrip, Bool.and_eq_true] at h
  have hopts : ∀ v, c.Options = some v →
      ∀ f ∈ ConnectionOptions.fields, FieldRoundTrips f v ConnectionOptions.zero := by
    intro v hv
    have h' := h
    simp only [hv] at h'
    exact fields_roundTrip_ConnectionOptions v (by simp only [h'])
  intro f hf
  simp only [Connection.fields] at hf
  repeat (rcases List.mem_cons.mp hf with rfl | hf
          · first
              | exact vrt_boolPtr _ _
              | exact vrt_stringPtr _ _ (by simp only [h])
              | exact vrt_slice _ (by simp only [h])
              | exact vrt_anyPtr _ (by simp only [h])
              | exact vrt_structPtr _ lawful_ConnectionOptions _ _ hopts)
  cases hf

theorem encAny_deepSlice : ∀ n, encAny (deepSlice n) = .ok (deepArray n)
  | 0 => rfl
  | n + 1 => by simp only [deepSlice, encAny, encList, encAny_deepSlice n, deepArray]

theorem depth_deepArray : ∀ n, (deepArray n).depth = n + 1
  | 0 => rfl
  | n + 1 => by
    simp only [deepArray, JSON.depth, depthElems, depth_deepArray n]
    omega

theorem marshal_metadata (a : Any) (j : JSON) (h : encAny a = .ok j) :
    Connection.marshal { Connection.zero with Metadata := some a } =
      .ok (.obj [("metadata", j)]) := by
  simp [Connection.marshal, structCodec, Connection.fields, marshalFields, Connection.zero, ptr,
    stringCodec, boolCodec, sliceCodec, anyCodec, h]

/-! ## Resource model -/

/-- C6 (amended): a connection is decoded from its own encoding as an equal
connection when all of the following hold: every string and map key in it is
valid UTF-8; every list and map field is nil or non-empty; a set `Email`
holds a non-nil `*bool` or `*PasswordlessEmail`; a set `Metadata` or
`UpstreamParams` points to a non-nil value; every untyped value is built from
nil, booleans, finite floats, strings, non-nil slices and non-nil maps; and
the encoding nests no deeper than the decoder accepts. -/
theorem C6_roundTrip (c : Connection) (h : c.roundTrips = true) : c.roundTrip = .ok c := by
  simp only [Connection.roundTrips, Bool.and_eq_true] at h
  obtain ⟨hf, hd⟩ := h
  obtain ⟨members, hm, hu⟩ := struct_roundTrip Connection.fields lawful_Connection c
    Connection.zero (fields_roundTrip_Connection c hf)
  have hm' : c.marshal = .ok (.obj members) := hm
  simp only [Connection.withinDepth, hm', decide_eq_true_eq] at hd
  simp only [Connection.roundTrip, hm', Connection.unmarshal, jsonUnmarshal_shallow _ _ _ hd, hu]

theorem roundTrip_invalidName :
    invalidName.roundTrip = .ok { Connection.zero with Name := some (GoString.ofText "a\uFFFDb") } ∧
      { Connection.zero with Name := some (GoString.ofText "a\uFFFDb") } ≠ invalidName := by
  refine ⟨rfl, ?_⟩
  intro h
  have hn := congrArg (fun c : Connection => c.Name) h
  revert hn
  decide

theorem roundTrip_deepSlice (n : Nat) (hn : maxNestingDepth ≤ n) :
    Connection.roundTrip { Connection.zero with Metadata := some (deepSlice n) } =
      .error .SyntaxError := by
  have hm := marshal_metadata (deepSlice n) _ (encAny_deepSlice n)
  have hdepth : maxNestingDepth < (JSON.obj [("metadata", deepArray n)]).depth := by
    show maxNestingDepth < depthMembers [("metadata", deepArray n)] + 1
    simp only [depthMembers, depth_deepArray, Nat.zero_le, max_eq_left]
    omega
  simp only [Connection.roundTrip, hm, Connection.unmarshal, jsonUnmarshal, hdepth, if_true]

theorem roundTrip_deepMetadata : deepMetadata.roundTrip = .error .SyntaxError :=
  roundTrip_deepSlice maxNestingDepth (Nat.le_refl _)

/-- C6 (as stated, refuted): eight connections that are not decoded from their
own encoding as they were. An empty non-nil list and an empty non-nil map
come back nil; an email union holding nothing comes back as a nil `Email`; a
`Metadata` pointing to a nil value, or to a value holding a nil slice, comes
back as a nil pointer; a `Metadata` holding NaN is not encoded at all; a
`Name` that is not valid UTF-8 comes back with U+FFFD in place of the invalid
byte; and a `Metadata` nested too deep is encoded but rejected by the
decoder. -/
theorem C6_roundTrip_counterexample :
    (emptyClients.roundTrip = .ok Connection.zero ∧ Connection.zero ≠ emptyClients) ∧
    (emptyValidation.roundTrip =
        .ok { Connection.zero with Options := some ConnectionOptions.zero } ∧
      { Connection.zero with Options := some ConnectionOptions.zero } ≠ emptyValidation) ∧
    (unsetEmail.roundTrip = .ok { Connection.zero with Options := some ConnectionOptions.zero } ∧
      { Connection.zero with Options := some ConnectionOptions.zero } ≠ unsetEmail) ∧
    (nilMetadata.roundTrip = .ok Connection.zero ∧ Connection.zero ≠ nilMetadata) ∧
    (nilSliceMetadata.roundTrip = .ok Connection.zero ∧ Connection.zero ≠ nilSliceMetadata) ∧
    nanMetadata.roundTrip = .error .UnsupportedValueError ∧
    (invalidName.roundTrip =
        .ok { Connection.zero with Name := some (GoString.ofText "a\uFFFDb") } ∧
      { Connection.zero with Name := some (GoString.ofText "a\uFFFDb") } ≠ invalidName) ∧
    deepMetadata.roundTrip = .error .SyntaxError := by
  refine ⟨⟨rfl, ?_⟩, ⟨rfl, ?_⟩, ⟨rfl, ?_⟩, ⟨rfl, ?_⟩, ⟨rfl, ?_⟩, rfl, roundTrip_invalidName,
    roundTrip_deepMetadata⟩
  · simp [emptyClients, Connection.zero]
  · simp [emptyValidation, Connection.zero, ConnectionOptions.zero]
  · simp [unsetEmail, Connection.zero, ConnectionOptions.zero]
  · simp [nilMetadata, Connection.zero]
  · simp [nilSliceMetadata, Connection.zero]

/-- C6 (amended) at a connection with fields of every kind set. -/
theorem C6_roundTrip_witness :
    sampleConnection.roundTrips = true ∧ sampleConnection.roundTrip = .ok sampleConnection :=
  ⟨by decide, C6_roundTrip sampleConnection (by decide)⟩

/-! ## Omission of unset fields -/

theorem marshalFields_keys_of_ok {S : Type} (s : S) :
    ∀ (fields : List (StructField S)) (members : List (String × JSON)),
      marshalFields fields s = .ok members →
      members.map Prod.fst =
        (fields.filter fun f => !(f.omitEmpty && f.codec.isEmptyValue (f.get s))).map
          fun f => f.name := by
  intro fields
  induction fields with
  | nil =>
    intro members hm
    cases hm
    rfl
  | cons g gs ih =>
    intro members hm
    by_cases hg : (g.omitEmpty && g.codec.isEmptyValue (g.get s)) = true
    · simp only [marshalFields, hg, if_true] at hm
      simp only [List.filter_cons, hg, Bool.not_true, ih members hm]
      rfl
    · simp only [Bool.not_eq_true] at hg
      simp only [marshalFields, hg] at hm
      cases hgm : g.codec.marshal (g.get s) with
      | error err => simp [hgm] at hm
      | ok jg =>
        cases hrest : marshalFields gs s with
        | error err => simp [hgm, hrest] at hm
        | ok rest =>
          simp only [hgm, hrest, Bool.false_eq_true, if_false, Except.ok.injEq] at hm
          rw [← hm]
          simp only [List.filter_cons, hg, Bool.not_false, if_true, List.map_cons,
            ih rest hrest]

theorem marshalFields_mem {S : Type} (s : S) :
    ∀ (fields : List (StructField S)) (members : List (String × JSON)),
      marshalFields fields s = .ok members →
      ∀ f ∈ fields, (f.omitEmpty && f.codec.isEmptyValue (f.get s)) = false →
        ∀ j, f.codec.marshal (f.get s) = .ok j → (f.name, j) ∈ members := by
  intro fields
  induction fields with
  | nil => intro _ _ f hf; cases hf
  | cons g gs ih =>
    intro members hm f hf hom j hj
    by_cases hg : (g.omitEmpty && g.codec.isEmptyValue (g.get s)) = true
    · simp only [marshalFields, hg, if_true] at hm
      rcases List.mem_cons.mp hf with rfl | hmem
      · rw [hg] at hom
        cases hom
      · exact ih members hm f hmem hom j hj
    · simp only [Bool.not_eq_true] at hg
      simp only [marshalFields, hg] at hm
      cases hgm : g.codec.marshal (g.get s) with
      | error err => simp [hgm] at hm
      | ok jg =>
        cases hrest : marshalFields gs s with
        | error err => simp [hgm, hrest] at hm
        | ok rest =>
          simp only [hgm, hrest, Bool.false_eq_true, if_false, Except.ok.injEq] at hm
          rw [← hm]
          rcases List.mem_cons.mp hf with rfl | hmem
          · rw [hgm] at hj
            cases hj
            exact List.mem_cons_self _ _
          · exact List.mem_cons_of_mem _ (ih rest hrest f hmem hom j hj)

theorem marshalFields_of_marshal {S : Type} (fields : List (StructField S)) (s : S)
    (members : List (String × JSON))
    (h : (structCodec fields).marshal s = .ok (.obj members)) :
    marshalFields fields s = .ok members := by
  simp only [structCodec] at h
  cases hm : marshalFields fields s with
  | error err => simp [hm] at h
  | ok ms =>
    simp only [hm, Except.ok.injEq, JSON.obj.injEq] at h
    rw [h]

theorem omitted_not_key {S : Type} (fields : List (StructField S))
    (hnd : (fields.map fun f => f.name).Nodup) (s : S) (members : List (String × JSON))
    (hkeys : members.map Prod.fst =
      (fields.filter fun f => !(f.omitEmpty && f.codec.isEmptyValue (f.get s))).map
        fun f => f.name)
    (f : StructField S) (hf : f ∈ fields)
    (hom : (f.omitEmpty && f.codec.isEmptyValue (f.get s)) = true) :
    f.name ∉ members.map Prod.fst := by
  rw [hkeys]
  intro hmem
  obtain ⟨g, hg, hname⟩ := List.mem_map.mp hmem
  obtain ⟨hgmem, hgkeep⟩ := List.mem_filter.mp hg
  have hgf : g = f := List.inj_on_of_nodup_map hnd hgmem hf hname
  rw [hgf, hom] at hgkeep
  cases hgkeep

mutual
theorem encAny_supported : ∀ a : Any, a.supported = true → ∃ j, encAny a = .ok j
  | .nil, _ => ⟨_, rfl⟩
  | .bool _, _ => ⟨_, rfl⟩
  | .float64 (.finite _), _ => ⟨_, rfl⟩
  | .float64 .nan, h => by simp [Any.supported] at h
  | .float64 .posInf, h => by simp [Any.supported] at h
  | .float64 .negInf, h => by simp [Any.supported] at h
  | .string _, _ => ⟨_, rfl⟩
  | .nilSlice, _ => ⟨_, rfl⟩
  | .nilMap, _ => ⟨_, rfl⟩
  | .slice xs, h => by
    simp only [Any.supported] at h
    obtain ⟨js, hjs⟩ := encList_supported xs h
    exact ⟨.arr js, by simp only [encAny, hjs]⟩
  | .map m, h => by
    simp only [Any.supported] at h
    obtain ⟨ms, hms⟩ := encEntries_supported m h
    exact ⟨.obj ms, by simp only [encAny, hms]⟩
theorem encList_supported : ∀ xs : List Any, supportedList xs = true →
    ∃ js, encList xs = .ok js
  | [], _ => ⟨[], rfl⟩
  | x :: xs, h => by
    simp only [supportedList, Bool.and_eq_true] at h
    obtain ⟨j, hj⟩ := encAny_supported x h.1
    obtain ⟨js, hjs⟩ := encList_supported xs h.2
    exact ⟨j :: js, by simp only [encList, hj, hjs]⟩
theorem encEntries_supported : ∀ m : List (GoString × Any), supportedEntries m = true →
    ∃ ms, encEntries m = .ok ms
  | [], _ => ⟨[], rfl⟩
  | (k, v) :: m, h => by
    simp only [supportedEntries, Bool.and_eq_true] at h
    obtain ⟨j, hj⟩ := encAny_supported v h.1
    obtain ⟨ms, hms⟩ := encEntries_supported m h.2
    exact ⟨(k.text, j) :: ms, by simp only [encEntries, hj, hms]⟩
end

theorem total_ptr {T : Type} (c : Codec T) (zero : T) (hc : ∀ x, ∃ j, c.marshal x = .ok j) :
    ∀ x, ∃ j, (ptr c zero).marshal x = .ok j := by
  intro x
  cases x with
  | none => exact ⟨_, rfl⟩
  | some v => exact hc v

theorem total_string : ∀ x, ∃ j, stringCodec.marshal x = .ok j := fun _ => ⟨_, rfl⟩

theorem total_bool : ∀ x, ∃ j, boolCodec.marshal x = .ok j := fun _ => ⟨_, rfl⟩

theorem total_int : ∀ x, ∃ j, intCodec.marshal x = .ok j := fun _ => ⟨_, rfl⟩

theorem marshal_anyPtr (x : Option Any) (h : anyPtrSupported x = true) :
    ∃ j, (ptr anyCodec .nil).marshal x = .ok j := by
  cases x with
  | none => exact ⟨_, rfl⟩
  | some a => exact encAny_supported a h

theorem marshal_slice (x : SliceAny) (h : sliceSupported x = true) :
    ∃ j, sliceCodec.marshal x = .ok j := by
  cases x with
  | none => exact ⟨_, rfl⟩
  | some xs =>
    obtain ⟨js, hjs⟩ := encList_supported xs h
    exact ⟨.arr js, by simp only [sliceCodec, hjs]⟩

theorem marshal_map (x : MapStringAny) (h : mapSupported x = true) :
    ∃ j, mapCodec.marshal x = .ok j := by
  cases x with
  | none => exact ⟨_, rfl⟩
  | some es =>
    obtain ⟨ms, hms⟩ := encEntries_supported es h
    exact ⟨.obj ms, by simp only [mapCodec, hms]⟩

theorem marshal_struct {S : Type} (fields : List (StructField S)) (s : S)
    (h : ∀ f ∈ fields, ∃ j, f.codec.marshal (f.get s) = .ok j) :
    ∃ members, (structCodec fields).marshal s = .ok (.obj members) := by
  obtain ⟨members, hm, _⟩ := marshalFields_keys s fields h
  exact ⟨members, by simp only [structCodec, hm]⟩

theorem marshal_structPtr {S : Type} (fields : List (StructField S)) (zero : S) (x : Option S)
    (h : ∀ v, x = some v → ∀ f ∈ fields, ∃ j, f.codec.marshal (f.get v) = .ok j) :
    ∃ j, (ptr (structCodec fields) zero).marshal x = .ok j := by
  cases x with
  | none => exact ⟨_, rfl⟩
  | some v =>
    obtain ⟨members, hm⟩ := marshal_struct fields v (h v rfl)
    exact ⟨_, hm⟩

theorem total_PasswordlessEmail (p : PasswordlessEmail) :
    ∀ f ∈ PasswordlessEmail.fields, ∃ j, f.codec.marshal (f.get p) = .ok j := by
  intro f hf
  simp only [PasswordlessEmail.fields] at hf
  repeat (rcases List.mem_cons.mp hf with rfl | hf; · exact total_ptr _ _ total_string _)
  cases hf

theorem MarshalJSON_total (e : ConnectionOptionsEmail) : ∃ j, e.MarshalJSON = .ok j := by
  rcases e with ⟨_ | ⟨_ | b⟩ | ⟨_ | p⟩⟩
  · exact ⟨_, rfl⟩
  · exact ⟨_, rfl⟩
  · exact ⟨_, rfl⟩
  · exact ⟨_, rfl⟩
  · obtain ⟨members, hm⟩ := marshal_struct PasswordlessEmail.fields p (total_PasswordlessEmail p)
    exact ⟨_, hm⟩

theorem total_email : ∀ x, ∃ j, emailPtrCodec.marshal x = .ok j := by
  intro x
  cases x with
  | none => exact ⟨_, rfl⟩
  | some e =>
    obtain ⟨j, hj⟩ := MarshalJSON_total e
    exact ⟨j, by simp only [emailPtrCodec, hj]⟩

theorem total_ConnectionOptionsTotp (t : ConnectionOptionsTotp) :
    ∀ f ∈ ConnectionOptionsTotp.fields, ∃ j, f.codec.marshal (f.get t) = .ok j := by
  intro f hf
  simp only [ConnectionOptionsTotp.fields] at hf
  repeat (rcases List.mem_cons.mp hf with rfl | hf; · exact total_ptr _ _ total_int _)
  cases hf

set_option maxRecDepth 100000 in
theorem marshal_fields_ConnectionOptions (o : ConnectionOptions) (h : o.encodable = true) :
    ∀ f ∈ ConnectionOptions.fields, ∃ j, f.codec.marshal (f.get o) = .ok j := by
  simp only [ConnectionOptions.encodable, Bool.and_eq_true] at h
  intro f hf
  simp only [ConnectionOptions.fields] at hf
  repeat (rcases List.mem_cons.mp hf with rfl | hf
          · first
              | exact total_ptr _ _ total_string _
              | exact total_ptr _ _ total_bool _
              | exact total_ptr _ _ total_int _
              | exact total_email _
              | exact marshal_anyPtr _ (by simp only [h])
              | exact marshal_map _ (by simp only [h])
              | exact marshal_slice _ (by simp only [h])
              | exact marshal_structPtr _ _ _ (fun v _ => total_ConnectionOptionsTotp v))
  cases hf

theorem marshal_fields_Connection (c : Connection) (h : c.encodable = true) :
    ∀ f ∈ Connection.fields, ∃ j, f.codec.marshal (f.get c) = .ok j := by
  simp only [Connection.encodable, Bool.and_eq_true] at h
  have hopts : ∀ v, c.Options = some v →
      ∀ f ∈ ConnectionOptions.fields, ∃ j, f.codec.marshal (f.get v) = .ok j := by
    intro v hv
    have h' := h
    simp only [hv] at h'
    exact marshal_fields_ConnectionOptions v (by simp only [h'])
  intro f hf
  simp only [Connection.fields] at hf
  repeat (rcases List.mem_cons.mp hf with rfl | hf
          · first
              | exact total_ptr _ _ total_string _
              | exact total_ptr _ _ total_bool _
              | exact marshal_anyPtr _ (by simp only [h])
              | exact marshal_slice _ (by simp only [h])
              | exact marshal_structPtr _ _ _ hopts)
  cases hf

set_option maxRecDepth 100000 in
theorem ConnectionOptions.omitEmpty_of_other :
    ∀ f ∈ ConnectionOptions.fields, f.name ≠ "community_base_url" →
      f.name ≠ "strategy_version" → f.omitEmpty = true := by
  decide

set_option maxRecDepth 100000 in
theorem ConnectionOptions.zero_isEmpty :
    ∀ f ∈ ConnectionOptions.fields,
      f.codec.isEmptyValue (f.get ConnectionOptions.zero) = true := by
  decide

theorem Connection.zero_omitted :
    ∀ f ∈ Connection.fields,
      (f.omitEmpty && f.codec.isEmptyValue (f.get Connection.zero)) = true := by
  decide

/-- C7 (as stated, refuted): connection options with no field set are written
as an object with two members, not one. -/
theorem C7_two_keys_counterexample :
    ConnectionOptions.zero.marshal =
      .ok (.obj [("community_base_url", .null), ("strategy_version", .null)]) ∧
    ¬ ∃ j k, ConnectionOptions.zero.marshal = .ok j ∧ j.keys = [k] := by
  refine ⟨rfl, ?_⟩
  rintro ⟨j, k, hj, hk⟩
  have h : ConnectionOptions.zero.marshal =
      .ok (.obj [("community_base_url", .null), ("strategy_version", .null)]) := rfl
  rw [h] at hj
  cases hj
  simp [JSON.keys] at hk

/-- C7 (amended): exactly two fields deviate from the omit-if-unset rule.
Connection options with no field set are written as the object with the two
members community_base_url and strategy_version, both null. Connection
options and connections are written as an object whenever no untyped value in
them holds a float that is not finite. The object written for connection
options holds each of these two members as null when its field is unset and
leaves out every other field that is unset; the object written for a
connection leaves out every field that is unset. -/
theorem C7_omission :
    ConnectionOptions.zero.marshal =
      .ok (.obj [("community_base_url", .null), ("strategy_version", .null)]) ∧
    (∀ o : ConnectionOptions, o.encodable = true → ∃ members, o.marshal = .ok (.obj members)) ∧
    (∀ (o : ConnectionOptions) (members : List (String × JSON)),
      o.marshal = .ok (.obj members) →
      (o.CommunityBaseURL = none → ("community_base_url", JSON.null) ∈ members) ∧
      (o.StrategyVersion = none → ("strategy_version", JSON.null) ∈ members) ∧
      ∀ f ∈ ConnectionOptions.fields, f.name ≠ "community_base_url" →
        f.name ≠ "strategy_version" → f.get o = f.get ConnectionOptions.zero →
        f.name ∉ (JSON.obj members).keys) ∧
    (∀ c : Connection, c.encodable = true → ∃ members, c.marshal = .ok (.obj members)) ∧
    (∀ (c : Connection) (members : List (String × JSON)), c.marshal = .ok (.obj members) →
      ∀ f ∈ Connection.fields, f.get c = f.get Connection.zero →
        f.name ∉ (JSON.obj members).keys) := by
  refine ⟨rfl, ?_, ?_, ?_, ?_⟩
  · intro o ho
    exact marshal_struct ConnectionOptions.fields o (marshal_fields_ConnectionOptions o ho)
  · intro o members hmar
    have hm := marshalFields_of_marshal ConnectionOptions.fields o members hmar
    have hkeys := marshalFields_keys_of_ok o ConnectionOptions.fields members hm
    refine ⟨?_, ?_, ?_⟩
    · intro hnone
      exact marshalFields_mem o ConnectionOptions.fields members hm
        ⟨Option GoString, "community_base_url", false, fun s => s.CommunityBaseURL,
          fun s x => { s with CommunityBaseURL := x }, ptr stringCodec ⟨[]⟩⟩
        (by simp [ConnectionOptions.fields]) rfl JSON.null
        (by show (ptr stringCodec ⟨[]⟩).marshal o.CommunityBaseURL = _; rw [hnone]; rfl)
    · intro hnone
      exact marshalFields_mem o ConnectionOptions.fields members hm
        ⟨Option Int, "strategy_version", false, fun s => s.StrategyVersion,
          fun s x => { s with StrategyVersion := x }, ptr intCodec 0⟩
        (by simp [ConnectionOptions.fields]) rfl JSON.null
        (by show (ptr intCodec 0).marshal o.StrategyVersion = _; rw [hnone]; rfl)
    · intro f hf h1 h2 hunset
      refine omitted_not_key ConnectionOptions.fields lawful_ConnectionOptions.nodup o members
        hkeys f hf ?_
      rw [hunset, ConnectionOptions.omitEmpty_of_other f hf h1 h2,
        ConnectionOptions.zero_isEmpty f hf]
      rfl
  · intro c hc
    exact marshal_struct Connection.fields c (marshal_fields_Connection c hc)
  · intro c members hmar
    have hm := marshalFields_of_marshal Connection.fields c members hmar
    have hkeys := marshalFields_keys_of_ok c Connection.fields members hm
    intro f hf hunset
    refine omitted_not_key Connection.fields lawful_Connection.nodup c members hkeys f hf ?_
    rw [hunset]
    exact Connection.zero_omitted f hf

/-! ## Connection manager -/

/-- C8: `ReadByName` returns (nil, err) when the list call filtered by the name
fails with err, (the first connection of the page, nil) when the page holds
one or more connections, and (nil, the management error 404 "Not Found"
"Connection not found") when the page holds none. -/
theorem C8_ReadByName (m : ConnectionManager) (name : String) :
    (∀ c err, m.List [Parameter "name" name] = (c, some err) →
      m.ReadByName name = some (none, some err)) ∧
    (∀ page first rest, m.List [Parameter "name" name] = (some page, none) →
      page.Connections = first :: rest → m.ReadByName name = some (first, none)) ∧
    (∀ page, m.List [Parameter "name" name] = (some page, none) →
      page.Connections = [] →
      m.ReadByName name =
        some (none, some (.management ⟨404, "Not Found", "Connection not found"⟩))) := by
  refine ⟨?_, ?_, ?_⟩
  · intro c err h
    simp [ConnectionManager.ReadByName, h]
  · intro page first rest h hc
    simp [ConnectionManager.ReadByName, h, hc]
  · intro page h hc
    simp [ConnectionManager.ReadByName, h, hc]

/-- C8 at a manager whose list call returns a page of two connections: the
first one is returned. -/
theorem C8_ReadByName_witness :
    sampleManager.List [Parameter "name" "my-database"] = (some samplePage, none) ∧
    samplePage.Connections = some sampleConnection :: [some emptyClients] ∧
    sampleManager.ReadByName "my-database" = some (some sampleConnection, none) :=
  ⟨rfl, rfl, (C8_ReadByName sampleManager "my-database").2.1 samplePage _ _ rfl rfl⟩

end management
